import Mathlib

/-!
Verification of the local grid scheduler (`jip/grids.py`).

The Python module implements a small local queueing system: a `_GridMaster`
actor owning a queued map, a running map and a slot counter, processing
SUBMIT / DONE / FAILED / CANCEL / WAIT / JOBS / EXIT messages; an executor
process per job reporting back over the same message channel; and a
`LocalCluster` facade on the client side.

This file embeds that code shallowly: Python dicts keyed by `job_id` become
lists of jobs (every insertion in the source uses the job's own id as the
key), Python sets become `Finset Nat`, machine integers become `Nat`/`Int`,
and the two recursions without a structural measure (`schedule` and
`_remove_children`) take an explicit fuel argument that the wrappers
instantiate with a bound that dominates the recursion depth the Python code
can reach on id-increasing dependency graphs.
-/

set_option linter.unusedVariables false

namespace PyJip

/-- The job-id placeholder in log path templates (source: literal `%J`). -/
def jobToken : String := "%J"

/-- Shallow embedding of `_Job` (grids.py).  `dependencies` and `children`
are Python sets of integer job ids, `threads` is the slot cost.  The
`process` handle is not modelled; command and path fields are carried as
optional strings (`None` becomes `none`). -/
structure Job where
  job_id : Nat
  dependencies : Finset Nat := ∅
  threads : Nat := 1
  cmd : Option String := none
  working_directory : Option String := none
  stdout : Option String := none
  stderr : Option String := none
  children : Finset Nat := ∅
deriving DecidableEq

/-- The ids of a job list.  A Python dict `{job_id: job}` is embedded as a
list of jobs; in the source every insertion uses the stored job's own
`job_id` as the key, so the key list is recovered as this map. -/
def ids (l : List Job) : List Nat := l.map Job.job_id

/-- lookup by id (`d[i]` / `i in d`). -/
def lookupJ (i : Nat) (l : List Job) : Option Job :=
  l.find? (fun j => j.job_id == i)

/-- deletion by id (`del d[i]`): removes the first entry with the id. -/
def eraseJ (i : Nat) : List Job → List Job
  | [] => []
  | x :: xs => if x.job_id = i then xs else x :: eraseJ i xs

/-- insertion (`d[j.job_id] = j`): replaces an existing entry with the same
id, otherwise appends (dicts preserve insertion order). -/
def jInsert (j : Job) : List Job → List Job
  | [] => [j]
  | x :: xs => if x.job_id = j.job_id then j :: xs else x :: jInsert j xs

/-- in-place mutation of the entry with the given id (Python mutates the
stored job object). -/
def modifyJ (i : Nat) (f : Job → Job) : List Job → List Job
  | [] => []
  | x :: xs => if x.job_id = i then f x :: xs else x :: modifyJ i f xs

/-- total `thread_count` of a job list. -/
def sumThreads (l : List Job) : Nat := (l.map Job.threads).sum

/-- Shallow embedding of the mutable state of `_GridMaster`. -/
structure MasterState where
  queued : List Job := []
  running : List Job := []
  slots_available : Int
  slots_total : Int
  wait_mode : Bool := false
  current_id : Nat := 0
deriving DecidableEq

/-- `_GridMaster.__init__` with an explicit core count (the source defaults
to the machine's cpu count, a positive integer). -/
def initState (cores : Nat) : MasterState :=
  { queued := [], running := [], slots_available := (cores : Int),
    slots_total := (cores : Int), wait_mode := false, current_id := 0 }

/-- `_GridMaster._num_jobs`. -/
def numJobs (st : MasterState) : Nat := st.queued.length + st.running.length

/-- `_GridMaster._resolve_log`: substitute the id for the `%J` token. -/
def resolveLog (i : Nat) : Option String → Option String
  | none => none
  | some p => some (p.replace jobToken (Nat.repr i))

/-- iterate a Python set of job ids in a fixed (ascending) order: the
member list of the finite set.  Python's set iteration order is
unspecified; every construct below that folds over a set is
order-insensitive, so fixing the ascending order is an exact embedding. -/
def sortedNats (s : Finset Nat) : List Nat :=
  (List.range (s.sup id + 1)).filter (fun i => i ∈ s)

/-- `_Job.__lt__`: order by (number of unresolved dependencies, job id). -/
def jobLT (a b : Job) : Bool :=
  if a.dependencies.card = b.dependencies.card then a.job_id < b.job_id
  else a.dependencies.card < b.dependencies.card

/-- stable insertion used by `sortJobs`. -/
def sInsert (x : Job) : List Job → List Job
  | [] => [x]
  | y :: ys => if jobLT x y then x :: y :: ys else y :: sInsert x ys

/-- `sorted(self.queued.values())`: stable ascending sort under `_Job.__lt__`
(for a total preorder every stable sort yields the same list, so insertion
sort is an exact embedding of Python's sort). -/
def sortJobs (l : List Job) : List Job := l.foldr sInsert []

/-- `_GridMaster._run_job`: if the job is still queued, move it from the
queued map into the running map (spawning of the worker process carries no
scheduler state). -/
def runJob (j : Job) (st : MasterState) : MasterState :=
  if (lookupJ j.job_id st.queued).isSome then
    { st with running := jInsert j st.running,
              queued := eraseJ j.job_id st.queued }
  else st

/-- the promotion of one job inside `schedule`: `_run_job` followed by the
decrement of `slots_available` (the decrement happens unconditionally in the
source, whether or not `_run_job` found the job in the queued map). -/
def promoteStep (j : Job) (st : MasterState) : MasterState :=
  let st1 := runJob j st
  { st1 with slots_available := st1.slots_available - (j.threads : Int) }

/-- The scan of `_GridMaster.schedule` over the sorted job list: the first
job with a non-empty dependency set halts the scan (`break`); the first
remaining job whose `threads` fit into `slots_available` is promoted via
`_run_job` and the slot counter is decremented.  `none` means the pass made
no promotion. -/
def tryPromote (st : MasterState) : List Job → Option MasterState
  | [] => none
  | j :: rest =>
    if 0 < j.dependencies.card then none
    else if (j.threads : Int) ≤ st.slots_available then some (promoteStep j st)
    else tryPromote st rest

/-- `_GridMaster.schedule` with fuel: after a promotion the source restarts
the whole pass when `slots_available >= 1` and returns.  Each restart
follows a promotion, which removes one queued entry, so the recursion depth
is bounded by the queue length; the wrapper `schedule` supplies that fuel. -/
def scheduleF : Nat → MasterState → MasterState
  | 0, st => st
  | n + 1, st =>
    match tryPromote st (sortJobs st.queued) with
    | none => st
    | some st1 => if 1 ≤ st1.slots_available then scheduleF n st1 else st1

/-- `_GridMaster.schedule`. -/
def schedule (st : MasterState) : MasterState :=
  scheduleF (st.queued.length + 1) st

/-- Reference scheduler for the refinement claim: identical to `scheduleF`
except that the restart after a promotion is unconditional. -/
def scheduleRefF : Nat → MasterState → MasterState
  | 0, st => st
  | n + 1, st =>
    match tryPromote st (sortJobs st.queued) with
    | none => st
    | some st1 => scheduleRefF n st1

/-- Reference scheduler pass (unconditional restart). -/
def scheduleRef (st : MasterState) : MasterState :=
  scheduleRefF (st.queued.length + 1) st

/-- remove `p` from a job's dependency set (`dependencies.remove`, with the
`KeyError` on an absent element logged and swallowed). -/
def dropDep (p : Nat) (j : Job) : Job :=
  { j with dependencies := j.dependencies.erase p }

/-- The loop body of `_GridMaster._update_dependencies`: for every child id
still queued, remove the parent id from that child's dependency set.  The
Python membership test is subsumed by `modifyJ`, which is the identity on an
absent id. -/
def updDepsList (p : Nat) : List Nat → List Job → List Job
  | [], q => q
  | c :: cs, q => updDepsList p cs (modifyJ c (dropDep p) q)

/-- `_GridMaster._update_dependencies` (set iteration fixed in sorted
order; the set operations below are order-independent). -/
def updateDependencies (job : Job) (st : MasterState) : MasterState :=
  { st with queued := updDepsList job.job_id (sortedNats job.children) st.queued }

/-- The loop of `_GridMaster._remove_children` over a worklist of child
ids, parametrized by the recursive call `go` used for a child that is
still queued: such a child is first recursively cascade-removed (`go` on
its own children), then `_update_dependencies` runs for it, then it is
deleted from the queued map. -/
def remChildListF (go : List Nat → MasterState → MasterState) :
    List Nat → MasterState → MasterState
  | [], st => st
  | c :: cs, st =>
    match lookupJ c st.queued with
    | none => remChildListF go cs st
    | some child =>
      let st1 := go (sortedNats child.children) st
      let st2 := updateDependencies child st1
      let st3 := { st2 with queued := eraseJ c st2.queued }
      remChildListF go cs st3

/-- The worklist loop with fuel: the fuel bounds how deeply the recursion
may nest (the actual Python recursion is unbounded; the wrapper below
supplies fuel that dominates every depth reachable on id-increasing
graphs). -/
def remChildList : Nat → List Nat → MasterState → MasterState
  | 0 => remChildListF fun _ st => st
  | f + 1 => remChildListF (remChildList f)

/-- `_GridMaster._remove_children` with explicit fuel: process the job's
child id set. -/
def removeChildrenF (f : Nat) (job : Job) (st : MasterState) : MasterState :=
  remChildList f (sortedNats job.children) st

/-- `_GridMaster._remove_children`: on the id-increasing dependency graphs
the master builds, a nested chain of still-queued children never exceeds the
size of the queued map, so this fuel is never exhausted. -/
def removeChildren (job : Job) (st : MasterState) : MasterState :=
  removeChildrenF st.queued.length job st

/-- add a child id to a job (`children.add`). -/
def addChild (b : Nat) (j : Job) : Job :=
  { j with children := insert b j.children }

/-- `if d in self.queued: self.queued[d].children.add(job_id)`. -/
def addChildToQ (b : Nat) (d : Nat) (st : MasterState) : MasterState :=
  if (lookupJ d st.queued).isSome then
    { st with queued := modifyJ d (addChild b) st.queued } else st

/-- `if d in self.running: self.running[d].children.add(job_id)`. -/
def addChildToR (b : Nat) (d : Nat) (st : MasterState) : MasterState :=
  if (lookupJ d st.running).isSome then
    { st with running := modifyJ d (addChild b) st.running } else st

/-- one iteration of the children-registration loop in
`_GridMaster._handle_submit`: if the dependency id is queued, add the new
id to that job's children; if it is running, likewise. -/
def addChildTo (b : Nat) (d : Nat) (st : MasterState) : MasterState :=
  addChildToR b d (addChildToQ b d st)

/-- the children-registration loop of `_handle_submit` (set iteration fixed
in sorted order). -/
def registerChildren (b : Nat) : List Nat → MasterState → MasterState
  | [], st => st
  | d :: ds, st => registerChildren b ds (addChildTo b d st)

/-- The state transformation of `_GridMaster._handle_submit` once the id
is assigned and the log templates are resolved: insert the job into
queued, register the new id as a child of every dependency present in
queued or running, and run the scheduler when `slots_available >= 1`. -/
def submitInserted (job : Job) (st : MasterState) : MasterState :=
  { st with current_id := st.current_id + 1, queued := jInsert job st.queued }

def submitCore (job : Job) (ds : List Nat) (st : MasterState) : MasterState :=
  let st2 := registerChildren (st.current_id + 1) ds (submitInserted job st)
  if 1 ≤ st2.slots_available then schedule st2 else st2

/-- `_GridMaster._handle_submit`: assign the next id, resolve the log
templates, insert into queued, register the new id as a child of every
dependency present in queued or running, reply with the id (returned here),
and run the scheduler when `slots_available >= 1`. -/
def handleSubmit (jd : Job) (st : MasterState) : MasterState × Nat :=
  let i := st.current_id + 1
  let job := { jd with job_id := i,
                       stdout := resolveLog i jd.stdout,
                       stderr := resolveLog i jd.stderr }
  (submitCore job (sortedNats job.dependencies) st, i)

/-- `_GridMaster._handle_done`: for a running id, return its threads to the
slot pool, update its children's dependency sets, cascade-remove the queued
descendants when the exit state is nonzero, delete it from running and run
the scheduler; otherwise the stale notice leaves the state unchanged. -/
def handleDone (i : Nat) (code : Int) (st : MasterState) : MasterState :=
  match lookupJ i st.running with
  | none => st
  | some job =>
    let st1 := { st with slots_available := st.slots_available + (job.threads : Int) }
    let st2 := updateDependencies job st1
    let st3 := if code ≠ 0 then removeChildren job st2 else st2
    let st4 := { st3 with running := eraseJ i st3.running }
    schedule st4

/-- `_GridMaster._handle_cancel`: a running id returns its threads and is
deleted from running; a queued id is deleted from queued; in both cases the
children's dependency sets are updated, the queued descendants are
cascade-removed and the scheduler runs; an unknown id leaves the state
unchanged. -/
def handleCancel (i : Nat) (st : MasterState) : MasterState :=
  match lookupJ i st.running with
  | some job =>
    let st1 := { st with slots_available := st.slots_available + (job.threads : Int),
                         running := eraseJ i st.running }
    let st2 := updateDependencies job st1
    let st3 := removeChildren job st2
    schedule st3
  | none =>
    match lookupJ i st.queued with
    | some job =>
      let st1 := { st with queued := eraseJ i st.queued }
      let st2 := updateDependencies job st1
      let st3 := removeChildren job st2
      schedule st3
    | none => st

/-- `_GridMaster._handle_wait`: set the drain flag (idempotently). -/
def handleWait (st : MasterState) : MasterState :=
  { st with wait_mode := true }

/-- The message protocol of the master loop. -/
inductive Msg
  | submit (jd : Job)
  | done (i : Nat) (code : Int)
  | failed (i : Nat) (err : String)
  | cancel (i : Nat)
  | wait
  | jobs
  | exit
deriving DecidableEq

/-- The only exception the handlers themselves raise: `_handle_failed`
dereferences the misspelled attribute `self.unning`. -/
inductive MasterError
  | attributeError
deriving DecidableEq

/-- One dispatch step of the master loop: the returned flag is the
handler's boolean (`False` stops the loop, as for EXIT).  `_handle_failed`
evaluates `job_id in self.unning` before any state change; no attribute
`unning` exists, so the handler raises AttributeError for every FAILED
message, which the loop treats as fatal. -/
def stepMsg (st : MasterState) : Msg → Except MasterError (MasterState × Bool)
  | Msg.submit jd => Except.ok ((handleSubmit jd st).1, true)
  | Msg.done i code => Except.ok (handleDone i code st, true)
  | Msg.failed _ _ => Except.error MasterError.attributeError
  | Msg.cancel i => Except.ok (handleCancel i st, true)
  | Msg.wait => Except.ok (handleWait st, true)
  | Msg.jobs => Except.ok (st, true)
  | Msg.exit => Except.ok (st, false)

/-- `_GridMaster.start`, run against a finite inbound message list: before
each receive the loop exits when the drain flag is set and no jobs remain; a
handler returning False or raising breaks the loop.  The result pairs the
final state with the messages left unconsumed. -/
def masterRun (st : MasterState) : List Msg → MasterState × List Msg
  | [] => (st, [])
  | m :: rest =>
    if st.wait_mode = true ∧ numJobs st = 0 then (st, m :: rest)
    else
      match stepMsg st m with
      | Except.ok (st1, true) => masterRun st1 rest
      | Except.ok (st1, false) => (st1, rest)
      | Except.error _ => (st, rest)

/-- Handling a message list to completion: an error aborts the whole run
(the loop breaks), EXIT stops it normally. -/
def execMsgs : MasterState → List Msg → Except MasterError MasterState
  | st, [] => Except.ok st
  | st, m :: rest =>
    match stepMsg st m with
    | Except.ok (st1, true) => execMsgs st1 rest
    | Except.ok (st1, false) => Except.ok st1
    | Except.error e => Except.error e

/-- Reference submit handler for the refinement claim: as `handleSubmit`,
but invoking the reference scheduler pass unconditionally instead of behind
the `slots_available >= 1` guard. -/
def handleSubmitRef (jd : Job) (st : MasterState) : MasterState × Nat :=
  let i := st.current_id + 1
  let job := { jd with job_id := i,
                       stdout := resolveLog i jd.stdout,
                       stderr := resolveLog i jd.stderr }
  let st1 := { st with current_id := i, queued := jInsert job st.queued }
  let st2 := registerChildren i (sortedNats job.dependencies) st1
  (scheduleRef st2, i)

/-! ### The executor (`_execute_job`) -/

/-- The three terminal ways an executor run can end: a normal exit of the
child process with an exit code, a launch/runtime fault raised inside the
`try` block (before `result` is assigned, so it still holds the initial
`-1`), or delivery of SIGTERM, whose handler reports and calls
`sys.exit(1)` (a `SystemExit` that the `except Exception` clause does not
catch). -/
inductive ExecOutcome
  | normal (exit_code : Int)
  | fault (err : String)
  | signaled
deriving DecidableEq

/-- The message sequence `_execute_job` puts on the master's request queue
for one job, per outcome: a normal run reports one DONE with the exit code;
a fault reports FAILED with the error and then falls through to the final
DONE with the initial `result = -1`; the termination-signal handler reports
DONE with code 1 and exits. -/
def executorMessages (i : Nat) : ExecOutcome → List Msg
  | ExecOutcome.normal code => [Msg.done i code]
  | ExecOutcome.fault err => [Msg.failed i err, Msg.done i (-1)]
  | ExecOutcome.signaled => [Msg.done i 1]

/-- a completion notice (DONE) for the given job id. -/
def isDoneFor (i : Nat) : Msg → Bool
  | Msg.done j _ => j == i
  | _ => false

/-- a failure notice (FAILED) for the given job id. -/
def isFailedFor (i : Nat) : Msg → Bool
  | Msg.failed j _ => j == i
  | _ => false

/-- a terminal notice (completion or failure) for the given job id. -/
def isNoticeFor (i : Nat) (m : Msg) : Bool := isDoneFor i m || isFailedFor i m

/-! ### The client-side facade (`LocalCluster`) -/

/-- The submission error raised by `LocalCluster.submit` when no master
process is running (`jip.cluster.SubmissionError`). -/
inductive SubErr
  | noMaster
deriving DecidableEq

/-- The client-side state of `LocalCluster` that the facade branches on:
whether `master_process` is set (`true`) or `None` (`false`). -/
structure LocalCluster where
  master_running : Bool
deriving DecidableEq

/-- default stderr template appended to the working directory. -/
def defaultErrName : String := "/jip-%J.err"

/-- default stdout template appended to the working directory. -/
def defaultOutName : String := "/jip-%J.out"

/-- `LocalCluster.submit`: with no master process it raises SubmissionError
before doing anything else; otherwise it fills in default log templates,
builds the local job and sends one SUBMIT message (`cwd0` stands for
`os.getcwd()`).  The result pairs the job sent with the messages put on the
request queue. -/
def clSubmit (c : LocalCluster) (cwd0 : String) (job : Job) :
    Except SubErr (Job × List Msg) :=
  if c.master_running = false then Except.error SubErr.noMaster
  else
    let cwd := job.working_directory.getD cwd0
    let jstderr := some (job.stderr.getD (cwd ++ defaultErrName))
    let jstdout := some (job.stdout.getD (cwd ++ defaultOutName))
    let local_job : Job :=
      { job_id := 0, dependencies := job.dependencies, threads := job.threads,
        cmd := job.cmd, working_directory := some cwd,
        stdout := jstdout, stderr := jstderr, children := ∅ }
    Except.ok (local_job, [Msg.submit local_job])

/-- `LocalCluster.list`: with no master process it returns the empty list
without sending anything; otherwise it sends JOBS and returns the master's
reply (taken as a parameter here). -/
def clList (c : LocalCluster) (reply : List Nat) : List Nat × List Msg :=
  if c.master_running then (reply, [Msg.jobs]) else ([], [])

/-- `LocalCluster.cancel`: with no master process it returns without
sending anything; otherwise it sends one CANCEL message. -/
def clCancel (c : LocalCluster) (i : Nat) : List Msg :=
  if c.master_running then [Msg.cancel i] else []

/-- `LocalCluster.wait`: with no master process it returns without sending
anything; otherwise it sends one WAIT message and joins the master. -/
def clWait (c : LocalCluster) : List Msg :=
  if c.master_running then [Msg.wait] else []

/-- `LocalCluster.shutdown`: with no master process it returns without
sending anything; otherwise it sends one EXIT message and joins the
master. -/
def clShutdown (c : LocalCluster) : List Msg :=
  if c.master_running then [Msg.exit] else []

/-! ### Reachability through the queued map (for the cascade claim) -/

/-- `QReach q roots c`: job id `c` is a transitive descendant of the root
id set through `children` edges whose endpoints are still present in the
queued map `q` — exactly the subtree `_remove_children` prunes. -/
inductive QReach (q : List Job) (roots : Finset Nat) : Nat → Prop
  | base {c : Nat} : c ∈ roots → c ∈ ids q → QReach q roots c
  | step {c c' : Nat} {jc : Job} : QReach q roots c → lookupJ c q = some jc →
      c' ∈ jc.children → c' ∈ ids q → QReach q roots c'

/-- the dependency graph invariant the master establishes at submission
time: every child edge points to a strictly larger id (children are only
ever registered for a freshly assigned id, which exceeds every id already
present). -/
def IdIncreasing (q : List Job) : Prop :=
  ∀ j ∈ q, ∀ c ∈ j.children, j.job_id < c

/-- lookup across both maps, trying the queued map first (the handlers
test `in self.queued` before `in self.running`). -/
def lookupAll (i : Nat) (st : MasterState) : Option Job :=
  match lookupJ i st.queued with
  | some j => some j
  | none => lookupJ i st.running

/-! ### Concrete states used by the claim witnesses -/

/-- state of the master after submitting one default job to a fresh
two-slot master. -/
def c3WitState : MasterState :=
  { queued := [], running := [{ job_id := 1 }], slots_available := 1,
    slots_total := 2, wait_mode := false, current_id := 1 }

/-- a dependency-free one-thread job. -/
def c4WitJob : Job := { job_id := 5 }

/-- a one-slot master with `c4WitJob` queued. -/
def c4WitState : MasterState :=
  { queued := [c4WitJob], running := [], slots_available := 1, slots_total := 1 }

/-- a one-slot master whose only queued job needs two slots. -/
def c7WitState : MasterState :=
  { queued := [{ job_id := 3, threads := 2 }], running := [],
    slots_available := 1, slots_total := 1 }

/-- a fresh default job for the submit refinement witness. -/
def c7WitJob : Job := { job_id := 0 }

/-- error text used in the FAILED evidence states. -/
def errText : String := "boom"

/-- running job 1 (two threads) with dependent child 2. -/
def c1Job1 : Job := { job_id := 1, threads := 2, children := {2} }

/-- queued job 2 depending on job 1. -/
def c1Job2 : Job := { job_id := 2, dependencies := {1}, threads := 1 }

/-- a master with job 1 running and job 2 queued behind it. -/
def c1WitState : MasterState :=
  { queued := [c1Job2], running := [c1Job1], slots_available := 1,
    slots_total := 3, wait_mode := false, current_id := 2 }

/-- an idle draining master used by the C9 witness. -/
def c9WitState : MasterState :=
  { queued := [], running := [], slots_available := 2, slots_total := 2,
    wait_mode := true, current_id := 0 }

/-- a master with one running job (id 1) for the mirrored-edge witness. -/
def c6WitState : MasterState :=
  { queued := [], running := [{ job_id := 1 }], slots_available := 0,
    slots_total := 1, wait_mode := false, current_id := 1 }

/-- a job depending on id 1, submitted in the mirrored-edge witness. -/
def c6WitJob : Job := { job_id := 0, dependencies := {1} }

/-- cascade root for the C5 witness: a terminated job whose only child is
queued job 2. -/
def c5Root : Job := { job_id := 1, children := {2} }

/-- queued chain 2 -> 3 plus the unrelated queued job 9 and a running job,
for the cascade witness. -/
def c5WitState : MasterState :=
  { queued := [{ job_id := 2, dependencies := {1}, children := {3} },
               { job_id := 3, dependencies := {2} }, { job_id := 9 }],
    running := [{ job_id := 4 }], slots_available := 1, slots_total := 2,
    wait_mode := false, current_id := 9 }

/-! ### Derived predicates used by the verification -/

/-- the non-strict order corresponding to `_Job.__lt__`. -/
def JobOrd (a b : Job) : Prop := jobLT b a = false

/-- two master states agreeing on everything except the queued map. -/
def SameFrame (a b : MasterState) : Prop :=
  a.running = b.running ∧ a.slots_available = b.slots_available ∧
  a.slots_total = b.slots_total ∧ a.wait_mode = b.wait_mode ∧
  a.current_id = b.current_id

/-- two master states agreeing on the id lists of both maps, the running
thread total, and everything but the job values. -/
def SameSkel (a b : MasterState) : Prop :=
  ids a.queued = ids b.queued ∧ ids a.running = ids b.running ∧
  sumThreads a.running = sumThreads b.running ∧
  a.slots_available = b.slots_available ∧ a.slots_total = b.slots_total ∧
  a.wait_mode = b.wait_mode ∧ a.current_id = b.current_id

/-- The internal consistency invariant of the master state: the id lists of
the two maps are jointly duplicate-free, every id is at most the id
counter, the slot equation of the specification holds, and the available
slot count is non-negative. -/
def Inv (st : MasterState) : Prop :=
  (ids st.queued ++ ids st.running).Nodup ∧
  (∀ i ∈ ids st.queued ++ ids st.running, i ≤ st.current_id) ∧
  st.slots_available + (sumThreads st.running : Int) = st.slots_total ∧
  0 ≤ st.slots_available


/-! ### Basic lemmas about the embedded dict operations -/

theorem ids_nil : ids [] = [] := rfl

theorem ids_cons (x : Job) (l : List Job) : ids (x :: l) = x.job_id :: ids l := rfl

theorem mem_ids_of_mem {j : Job} {l : List Job} (h : j ∈ l) : j.job_id ∈ ids l :=
  List.mem_map_of_mem Job.job_id h

theorem lookupJ_nil (i : Nat) : lookupJ i [] = none := rfl

theorem lookupJ_cons (i : Nat) (x : Job) (xs : List Job) :
    lookupJ i (x :: xs) = if x.job_id = i then some x else lookupJ i xs := by
  by_cases hx : x.job_id = i
  · rw [if_pos hx]
    exact List.find?_cons_of_pos _ (by simpa using hx)
  · rw [if_neg hx]
    exact List.find?_cons_of_neg _ (by simpa using hx)

theorem lookupJ_eq_some {i : Nat} {l : List Job} {j : Job}
    (h : lookupJ i l = some j) : j ∈ l ∧ j.job_id = i := by
  refine ⟨List.mem_of_find?_eq_some h, ?_⟩
  have := List.find?_some h
  simpa using this

theorem lookupJ_eq_none {i : Nat} {l : List Job} :
    lookupJ i l = none ↔ i ∉ ids l := by
  unfold lookupJ
  rw [List.find?_eq_none]
  constructor
  · intro h hm
    rcases List.mem_map.mp hm with ⟨j, hj, hij⟩
    exact h j hj (by simpa [hij])
  · intro h j hj hp
    exact h (List.mem_map.mpr ⟨j, hj, by simpa using hp⟩)

theorem lookupJ_isSome {i : Nat} {l : List Job} :
    (lookupJ i l).isSome = true ↔ i ∈ ids l := by
  rcases h : lookupJ i l with _ | j
  · simpa using lookupJ_eq_none.mp h
  · simp only [Option.isSome_some, true_iff]
    rcases lookupJ_eq_some h with ⟨hm, hid⟩
    exact hid ▸ mem_ids_of_mem hm

theorem lookupJ_self {l : List Job} {j : Job}
    (hnd : (ids l).Nodup) (hm : j ∈ l) : lookupJ j.job_id l = some j := by
  induction l with
  | nil => cases hm
  | cons x xs ih =>
    rcases List.mem_cons.mp hm with rfl | hm'
    · simp [lookupJ_cons]
    · have hx : x.job_id ≠ j.job_id := by
        intro he
        exact (List.nodup_cons.mp hnd).1 (he ▸ mem_ids_of_mem hm')
      have := ih (List.nodup_cons.mp hnd).2 hm'
      simpa [lookupJ_cons, hx] using this

theorem eraseJ_sublist (i : Nat) (l : List Job) : List.Sublist (eraseJ i l) l := by
  induction l with
  | nil => simp [eraseJ]
  | cons x xs ih =>
    by_cases hx : x.job_id = i
    · simp only [eraseJ, if_pos hx]
      exact List.sublist_cons_self x xs
    · simpa [eraseJ, hx] using ih.cons₂ x

theorem ids_eraseJ (i : Nat) (l : List Job) :
    ids (eraseJ i l) = (ids l).erase i := by
  induction l with
  | nil => rfl
  | cons x xs ih =>
    by_cases hx : x.job_id = i
    · simp [eraseJ, hx, ids_cons, List.erase_cons_head]
    · simp [eraseJ, hx, ids_cons, ih, List.erase_cons_tail, Ne.symm hx,
        beq_iff_eq]

theorem lookupJ_eraseJ_ne {i i' : Nat} (l : List Job) (h : i ≠ i') :
    lookupJ i (eraseJ i' l) = lookupJ i l := by
  induction l with
  | nil => rfl
  | cons x xs ih =>
    by_cases hx : x.job_id = i'
    · have hxn : x.job_id ≠ i := by rw [hx]; exact fun he => h he.symm
      simp [eraseJ, hx, lookupJ_cons, hxn, Ne.symm h]
    · by_cases hxi : x.job_id = i
      · simp [eraseJ, hx, lookupJ_cons, hxi, h]
      · simpa [eraseJ, hx, lookupJ_cons, hxi] using ih

theorem eraseJ_of_not_mem {i : Nat} {l : List Job} (h : i ∉ ids l) :
    eraseJ i l = l := by
  induction l with
  | nil => rfl
  | cons x xs ih =>
    simp only [ids_cons, List.mem_cons, not_or] at h
    simp [eraseJ, Ne.symm h.1, ih h.2]

theorem jInsert_fresh {j : Job} {l : List Job} (h : j.job_id ∉ ids l) :
    jInsert j l = l ++ [j] := by
  induction l with
  | nil => rfl
  | cons x xs ih =>
    simp only [ids_cons, List.mem_cons, not_or] at h
    simp [jInsert, Ne.symm h.1, ih h.2]

theorem mem_jInsert {x j : Job} {l : List Job} (h : x ∈ jInsert j l) :
    x = j ∨ x ∈ l := by
  induction l with
  | nil => simpa [jInsert] using h
  | cons y ys ih =>
    by_cases hy : y.job_id = j.job_id
    · rcases List.mem_cons.mp (by simpa [jInsert, hy] using h) with rfl | hm
      · exact Or.inl rfl
      · exact Or.inr (List.mem_cons_of_mem _ hm)
    · rcases List.mem_cons.mp (by simpa [jInsert, hy] using h) with rfl | hm
      · exact Or.inr (List.mem_cons_self _ _)
      · rcases ih hm with h1 | h2
        · exact Or.inl h1
        · exact Or.inr (List.mem_cons_of_mem _ h2)

theorem lookupJ_jInsert_self (j : Job) (l : List Job) :
    lookupJ j.job_id (jInsert j l) = some j := by
  induction l with
  | nil => simp [jInsert, lookupJ_cons]
  | cons x xs ih =>
    by_cases hx : x.job_id = j.job_id
    · simp [jInsert, hx, lookupJ_cons]
    · simpa [jInsert, hx, lookupJ_cons] using ih

theorem lookupJ_jInsert_ne {i : Nat} {j : Job} (l : List Job)
    (h : i ≠ j.job_id) : lookupJ i (jInsert j l) = lookupJ i l := by
  induction l with
  | nil => simp [jInsert, lookupJ_cons, Ne.symm h]
  | cons x xs ih =>
    by_cases hx : x.job_id = j.job_id
    · have hxne : x.job_id ≠ i := by rw [hx]; exact fun he => h he.symm
      simp [jInsert, hx, lookupJ_cons, hxne, Ne.symm h]
    · by_cases hxi : x.job_id = i
      · simp [jInsert, hx, lookupJ_cons, hxi, h]
      · simpa [jInsert, hx, lookupJ_cons, hxi] using ih

theorem sumThreads_append (l1 l2 : List Job) :
    sumThreads (l1 ++ l2) = sumThreads l1 + sumThreads l2 := by
  simp [sumThreads]

theorem sumThreads_eraseJ {i : Nat} {l : List Job} {j : Job}
    (h : lookupJ i l = some j) :
    sumThreads l = sumThreads (eraseJ i l) + j.threads := by
  induction l with
  | nil => simp [lookupJ_nil] at h
  | cons x xs ih =>
    by_cases hx : x.job_id = i
    · have hxj : x = j := by
        simpa [lookupJ_cons, hx] using h
      subst hxj
      simp [eraseJ, hx, sumThreads]
      ring
    · have h' : lookupJ i xs = some j := by
        simpa [lookupJ_cons, hx] using h
      simp only [eraseJ, if_neg hx]
      have := ih h'
      simp [sumThreads] at this ⊢
      omega

theorem ids_modifyJ {f : Job → Job} (hf : ∀ x, (f x).job_id = x.job_id)
    (i : Nat) (l : List Job) : ids (modifyJ i f l) = ids l := by
  induction l with
  | nil => rfl
  | cons x xs ih =>
    by_cases hx : x.job_id = i
    · simp [modifyJ, hx, ids_cons, hf]
    · simp [modifyJ, hx, ids_cons, ih]

theorem sumThreads_modifyJ {f : Job → Job}
    (hf : ∀ x, (f x).threads = x.threads) (i : Nat) (l : List Job) :
    sumThreads (modifyJ i f l) = sumThreads l := by
  induction l with
  | nil => rfl
  | cons x xs ih =>
    by_cases hx : x.job_id = i
    · simp [modifyJ, hx, sumThreads, hf]
    · simp only [modifyJ, hx, if_false, if_neg hx]
      simp [sumThreads] at ih ⊢
      omega

theorem mem_modifyJ {x : Job} {f : Job → Job} {i : Nat} {l : List Job}
    (h : x ∈ modifyJ i f l) : x ∈ l ∨ ∃ y ∈ l, y.job_id = i ∧ x = f y := by
  induction l with
  | nil => simpa [modifyJ] using h
  | cons y ys ih =>
    by_cases hy : y.job_id = i
    · rcases List.mem_cons.mp (by simpa [modifyJ, hy] using h) with rfl | hm
      · exact Or.inr ⟨y, List.mem_cons_self _ _, hy, rfl⟩
      · exact Or.inl (List.mem_cons_of_mem _ hm)
    · rcases List.mem_cons.mp (by simpa [modifyJ, hy] using h) with rfl | hm
      · exact Or.inl (List.mem_cons_self _ _)
      · rcases ih hm with h1 | ⟨z, hz, hzi, hzf⟩
        · exact Or.inl (List.mem_cons_of_mem _ h1)
        · exact Or.inr ⟨z, List.mem_cons_of_mem _ hz, hzi, hzf⟩

theorem mem_modifyJ_of_ne {x : Job} {f : Job → Job} {i : Nat} {l : List Job}
    (h : x ∈ l) (hne : x.job_id ≠ i) : x ∈ modifyJ i f l := by
  induction l with
  | nil => cases h
  | cons y ys ih =>
    by_cases hy : y.job_id = i
    · rcases List.mem_cons.mp h with rfl | hm
      · exact absurd hy hne
      · simp [modifyJ, hy]
        exact Or.inr hm
    · rcases List.mem_cons.mp h with rfl | hm
      · simp [modifyJ, hy]
      · simp [modifyJ, hy]
        exact Or.inr (ih hm)

theorem modifyJ_of_not_mem {f : Job → Job} {i : Nat} {l : List Job}
    (h : i ∉ ids l) : modifyJ i f l = l := by
  induction l with
  | nil => rfl
  | cons x xs ih =>
    simp only [ids_cons, List.mem_cons, not_or] at h
    simp [modifyJ, Ne.symm h.1, ih h.2]

theorem lookupJ_modifyJ_ne {i i' : Nat} {f : Job → Job}
    (hf : ∀ x, (f x).job_id = x.job_id) (l : List Job)
    (h : i ≠ i') : lookupJ i (modifyJ i' f l) = lookupJ i l := by
  induction l with
  | nil => rfl
  | cons x xs ih =>
    by_cases hx : x.job_id = i'
    · have hfx : (f x).job_id ≠ i := by rw [hf, hx]; exact fun he => h he.symm
      have hxi : x.job_id ≠ i := by rw [hx]; exact fun he => h he.symm
      simp [modifyJ, hx, lookupJ_cons, hfx, hxi, Ne.symm h]
    · by_cases hxi : x.job_id = i
      · simp [modifyJ, hx, lookupJ_cons, hxi, h]
      · simpa [modifyJ, hx, lookupJ_cons, hxi] using ih

theorem lookupJ_modifyJ_self {i : Nat} {f : Job → Job}
    (hf : ∀ x, (f x).job_id = x.job_id) (l : List Job) :
    lookupJ i (modifyJ i f l) = (lookupJ i l).map f := by
  induction l with
  | nil => rfl
  | cons x xs ih =>
    by_cases hx : x.job_id = i
    · simp [modifyJ, hx, lookupJ_cons, hf]
    · simpa [modifyJ, hx, lookupJ_cons] using ih

/-! ### Lemmas about the job sort -/

theorem jobLT_eq_true_iff {a b : Job} : jobLT a b = true ↔
    (a.dependencies.card < b.dependencies.card ∨
      (a.dependencies.card = b.dependencies.card ∧ a.job_id < b.job_id)) := by
  unfold jobLT
  split_ifs with h
  · simp [h]
  · simp [h]

theorem jobOrd_of_lt {a b : Job} (h : jobLT a b = true) : JobOrd a b := by
  rw [JobOrd, Bool.eq_false_iff, Ne, jobLT_eq_true_iff]
  rw [jobLT_eq_true_iff] at h
  omega

theorem jobOrd_of_not_lt {a b : Job} (h : jobLT a b = false) : JobOrd b a := h

theorem jobOrd_trans {a b c : Job} (h1 : JobOrd a b) (h2 : JobOrd b c) :
    JobOrd a c := by
  rw [JobOrd, Bool.eq_false_iff, Ne, jobLT_eq_true_iff]
  rw [JobOrd, Bool.eq_false_iff, Ne, jobLT_eq_true_iff] at h1 h2
  omega

theorem mem_sInsert {x y : Job} {l : List Job} :
    x ∈ sInsert y l ↔ x = y ∨ x ∈ l := by
  induction l with
  | nil => simp [sInsert]
  | cons z zs ih =>
    by_cases hz : jobLT y z
    · simp [sInsert, hz]
    · simp [sInsert, hz, ih]
      tauto

theorem sInsert_perm (y : Job) (l : List Job) :
    List.Perm (sInsert y l) (y :: l) := by
  induction l with
  | nil => simp [sInsert]
  | cons z zs ih =>
    by_cases hz : jobLT y z
    · simp [sInsert, hz]
    · simp only [sInsert, if_neg hz]
      exact (ih.cons z).trans (List.Perm.swap y z zs)

theorem sortJobs_perm (l : List Job) : List.Perm (sortJobs l) l := by
  induction l with
  | nil => simp [sortJobs]
  | cons x xs ih =>
    simpa [sortJobs] using (sInsert_perm x (sortJobs xs)).trans (ih.cons x)

theorem mem_sortJobs {x : Job} {l : List Job} : x ∈ sortJobs l ↔ x ∈ l :=
  (sortJobs_perm l).mem_iff

theorem sorted_sInsert {x : Job} {l : List Job} (h : l.Sorted JobOrd) :
    (sInsert x l).Sorted JobOrd := by
  induction l with
  | nil => simp [sInsert]
  | cons y ys ih =>
    rcases List.sorted_cons.mp h with ⟨hy, hys⟩
    by_cases hxy : jobLT x y
    · rw [sInsert, if_pos hxy]
      refine List.sorted_cons.mpr ⟨?_, h⟩
      intro b hb
      rcases List.mem_cons.mp hb with rfl | hb'
      · exact jobOrd_of_lt hxy
      · exact jobOrd_trans (jobOrd_of_lt hxy) (hy b hb')
    · rw [sInsert, if_neg hxy]
      refine List.sorted_cons.mpr ⟨?_, ih hys⟩
      intro b hb
      rcases mem_sInsert.mp hb with rfl | hb'
      · exact jobOrd_of_not_lt (Bool.eq_false_iff.mpr hxy)
      · exact hy b hb'

theorem sorted_sortJobs (l : List Job) : (sortJobs l).Sorted JobOrd := by
  induction l with
  | nil => simp [sortJobs]
  | cons x xs ih => exact sorted_sInsert ih

/-! ### Frame lemmas: the cascade and dependency updates touch only the
queued map, and preserve the id skeleton of the queued map -/

theorem sameFrame_refl (a : MasterState) : SameFrame a a :=
  ⟨rfl, rfl, rfl, rfl, rfl⟩

theorem sameFrame_trans {a b c : MasterState} (h1 : SameFrame a b)
    (h2 : SameFrame b c) : SameFrame a c := by
  obtain ⟨u1, u2, u3, u4, u5⟩ := h1
  obtain ⟨v1, v2, v3, v4, v5⟩ := h2
  exact ⟨u1.trans v1, u2.trans v2, u3.trans v3, u4.trans v4, u5.trans v5⟩

theorem sameFrame_setQueued (st : MasterState) (q : List Job) :
    SameFrame { st with queued := q } st :=
  ⟨rfl, rfl, rfl, rfl, rfl⟩

theorem updateDependencies_frame (job : Job) (st : MasterState) :
    SameFrame (updateDependencies job st) st :=
  ⟨rfl, rfl, rfl, rfl, rfl⟩

theorem ids_updDepsList (p : Nat) : ∀ cs q, ids (updDepsList p cs q) = ids q := by
  intro cs
  induction cs with
  | nil => intro q; rfl
  | cons c cs ih =>
    intro q
    rw [updDepsList, ih, ids_modifyJ]
    intro x
    rfl

theorem ids_updateDependencies (job : Job) (st : MasterState) :
    ids (updateDependencies job st).queued = ids st.queued :=
  ids_updDepsList _ _ _

theorem remCLF_frame {go : List Nat → MasterState → MasterState}
    (hgo : ∀ cs st, SameFrame (go cs st) st) :
    ∀ cs st, SameFrame (remChildListF go cs st) st := by
  intro cs
  induction cs with
  | nil => intro st; exact sameFrame_refl _
  | cons c cs ih =>
    intro st
    rw [remChildListF]
    cases hl : lookupJ c st.queued with
    | none => exact ih st
    | some child =>
      refine sameFrame_trans (ih _) (sameFrame_trans (sameFrame_setQueued _ _)
        (sameFrame_trans (updateDependencies_frame _ _) (hgo _ _)))

theorem remCL_frame : ∀ f cs st, SameFrame (remChildList f cs st) st := by
  intro f
  induction f with
  | zero => exact remCLF_frame fun cs st => sameFrame_refl st
  | succ f ihf => exact remCLF_frame ihf

theorem remCLF_sub {go : List Nat → MasterState → MasterState}
    (hgo : ∀ cs st, List.Sublist (ids (go cs st).queued) (ids st.queued)) :
    ∀ cs st, List.Sublist (ids (remChildListF go cs st).queued) (ids st.queued) := by
  intro cs
  induction cs with
  | nil => intro st; exact List.Sublist.refl _
  | cons c cs ih =>
    intro st
    rw [remChildListF]
    cases hl : lookupJ c st.queued with
    | none => exact ih st
    | some child =>
      refine (ih _).trans ?_
      rw [ids_eraseJ, ids_updateDependencies]
      exact (List.erase_sublist _ _).trans (hgo _ _)

theorem remCL_sub : ∀ f cs st,
    List.Sublist (ids (remChildList f cs st).queued) (ids st.queued) := by
  intro f
  induction f with
  | zero => exact remCLF_sub fun cs st => List.Sublist.refl _
  | succ f ihf => exact remCLF_sub ihf

theorem removeChildren_frame (job : Job) (st : MasterState) :
    SameFrame (removeChildren job st) st :=
  remCL_frame _ _ _

theorem removeChildren_sub (job : Job) (st : MasterState) :
    List.Sublist (ids (removeChildren job st).queued) (ids st.queued) :=
  remCL_sub _ _ _

/-! ### Skeleton preservation of the children-registration loop -/

theorem addChild_job_id (b : Nat) (j : Job) : (addChild b j).job_id = j.job_id := rfl

theorem addChild_threads (b : Nat) (j : Job) : (addChild b j).threads = j.threads := rfl

theorem addChild_dependencies (b : Nat) (j : Job) :
    (addChild b j).dependencies = j.dependencies := rfl

theorem dropDep_job_id (p : Nat) (j : Job) : (dropDep p j).job_id = j.job_id := rfl

theorem dropDep_threads (p : Nat) (j : Job) : (dropDep p j).threads = j.threads := rfl

theorem sameSkel_refl (a : MasterState) : SameSkel a a :=
  ⟨rfl, rfl, rfl, rfl, rfl, rfl, rfl⟩

theorem sameSkel_trans {a b c : MasterState} (h1 : SameSkel a b)
    (h2 : SameSkel b c) : SameSkel a c := by
  obtain ⟨u1, u2, u3, u4, u5, u6, u7⟩ := h1
  obtain ⟨v1, v2, v3, v4, v5, v6, v7⟩ := h2
  exact ⟨u1.trans v1, u2.trans v2, u3.trans v3, u4.trans v4, u5.trans v5,
    u6.trans v6, u7.trans v7⟩

theorem addChildToQ_skel (b d : Nat) (st : MasterState) :
    SameSkel (addChildToQ b d st) st := by
  unfold addChildToQ
  split_ifs with h1
  · exact ⟨by simp [ids_modifyJ (addChild_job_id b)], rfl, rfl, rfl, rfl, rfl, rfl⟩
  · exact sameSkel_refl _

theorem addChildToR_skel (b d : Nat) (st : MasterState) :
    SameSkel (addChildToR b d st) st := by
  unfold addChildToR
  split_ifs with h1
  · exact ⟨rfl, by simp [ids_modifyJ (addChild_job_id b)],
      by simp [sumThreads_modifyJ (addChild_threads b)], rfl, rfl, rfl, rfl⟩
  · exact sameSkel_refl _

theorem addChildTo_skel (b d : Nat) (st : MasterState) :
    SameSkel (addChildTo b d st) st :=
  sameSkel_trans (addChildToR_skel b d _) (addChildToQ_skel b d st)

theorem registerChildren_skel (b : Nat) : ∀ ds st,
    SameSkel (registerChildren b ds st) st := by
  intro ds
  induction ds with
  | nil => intro st; exact sameSkel_refl _
  | cons d ds ih =>
    intro st
    rw [registerChildren]
    exact sameSkel_trans (ih _) (addChildTo_skel b d st)

/-! ### The slot-accounting invariant and its preservation -/

theorem inv_initState (cores : Nat) : Inv (initState cores) := by
  refine ⟨by simp [initState, ids], by simp [initState, ids], ?_, ?_⟩
  · simp [initState, sumThreads]
  · simp [initState]

theorem inv_of_skel {a b : MasterState} (hs : SameSkel a b) (h : Inv b) :
    Inv a := by
  obtain ⟨u1, u2, u3, u4, u5, u6, u7⟩ := hs
  obtain ⟨h1, h2, h3, h4⟩ := h
  rw [Inv, u1, u2, u3, u4, u5, u7]
  exact ⟨h1, h2, h3, h4⟩

theorem inv_sub_frame {st' st : MasterState} (hf : SameFrame st' st)
    (hs : List.Sublist (ids st'.queued) (ids st.queued)) (h : Inv st) :
    Inv st' := by
  obtain ⟨u1, u2, u3, u4, u5⟩ := hf
  obtain ⟨h1, h2, h3, h4⟩ := h
  have hsub : List.Sublist (ids st'.queued ++ ids st'.running)
      (ids st.queued ++ ids st.running) := by
    rw [u1]
    exact hs.append (List.Sublist.refl _)
  refine ⟨h1.sublist hsub, ?_, ?_, ?_⟩
  · intro i hi
    rw [u5]
    exact h2 i (hsub.subset hi)
  · rw [u1, u2, u3]
    exact h3
  · rw [u2]
    exact h4

theorem inv_updateDependencies {job : Job} {st : MasterState} (h : Inv st) :
    Inv (updateDependencies job st) :=
  inv_sub_frame (updateDependencies_frame job st)
    (by rw [ids_updateDependencies]) h

theorem inv_removeChildren {job : Job} {st : MasterState} (h : Inv st) :
    Inv (removeChildren job st) :=
  inv_sub_frame (removeChildren_frame job st) (removeChildren_sub job st) h

theorem inv_promoteStep {j : Job} {st : MasterState} (h : Inv st)
    (hj : j ∈ st.queued) (hth : (j.threads : Int) ≤ st.slots_available) :
    Inv (promoteStep j st) := by
  obtain ⟨h1, h2, h3, h4⟩ := h
  have hmemq : j.job_id ∈ ids st.queued := mem_ids_of_mem hj
  have hrun : (lookupJ j.job_id st.queued).isSome = true := lookupJ_isSome.mpr hmemq
  have hnr : j.job_id ∉ ids st.running := by
    rcases List.nodup_append.mp h1 with ⟨hh1, hh2, hdisj⟩
    exact fun hc => hdisj hmemq hc
  have hins : jInsert j st.running = st.running ++ [j] := jInsert_fresh hnr
  have hps : promoteStep j st =
      { st with queued := eraseJ j.job_id st.queued,
                running := st.running ++ [j],
                slots_available := st.slots_available - (j.threads : Int) } := by
    simp only [promoteStep, runJob, if_pos hrun, hins]
  have hq : ids (eraseJ j.job_id st.queued) = (ids st.queued).erase j.job_id :=
    ids_eraseJ _ _
  have hidapp : ids (st.running ++ [j]) = ids st.running ++ [j.job_id] := by
    simp [ids]
  have hperm : List.Perm
      (ids (eraseJ j.job_id st.queued) ++ (ids st.running ++ [j.job_id]))
      (ids st.queued ++ ids st.running) := by
    rw [hq]
    have p1 : List.Perm (ids st.running ++ [j.job_id]) (j.job_id :: ids st.running) :=
      List.perm_append_singleton _ _
    have p2 := p1.append_left ((ids st.queued).erase j.job_id)
    have p3 : List.Perm
        ((ids st.queued).erase j.job_id ++ (j.job_id :: ids st.running))
        (j.job_id :: ((ids st.queued).erase j.job_id ++ ids st.running)) :=
      List.perm_middle
    have p5 : List.Perm (j.job_id :: (ids st.queued).erase j.job_id) (ids st.queued) :=
      (List.perm_cons_erase hmemq).symm
    have p6 := p5.append_right (ids st.running)
    exact p2.trans (p3.trans p6)
  rw [hps]
  refine ⟨?_, ?_, ?_, ?_⟩
  · show (ids (eraseJ j.job_id st.queued) ++ ids (st.running ++ [j])).Nodup
    rw [hidapp]
    exact h1.perm hperm.symm
  · intro i hi
    show i ≤ st.current_id
    rw [hidapp] at hi
    exact h2 i (hperm.subset hi)
  · show st.slots_available - (j.threads : Int) + (sumThreads (st.running ++ [j]) : Int)
      = st.slots_total
    rw [sumThreads_append]
    push_cast
    push_cast at h3
    simp [sumThreads] at h3 ⊢
    linarith
  · show (0 : Int) ≤ st.slots_available - (j.threads : Int)
    omega

theorem tryPromote_eq_some {st : MasterState} : ∀ {l : List Job} {st' : MasterState},
    tryPromote st l = some st' →
    ∃ j ∈ l, j.dependencies.card = 0 ∧ (j.threads : Int) ≤ st.slots_available ∧
      st' = promoteStep j st := by
  intro l
  induction l with
  | nil => intro st' h; simp [tryPromote] at h
  | cons j rest ih =>
    intro st' h
    by_cases hd : 0 < j.dependencies.card
    · rw [tryPromote, if_pos hd] at h
      cases h
    · by_cases hth : (j.threads : Int) ≤ st.slots_available
      · rw [tryPromote, if_neg hd, if_pos hth] at h
        refine ⟨j, List.mem_cons_self _ _, by omega, hth, ?_⟩
        exact (Option.some_injective _ h).symm
      · rw [tryPromote, if_neg hd, if_neg hth] at h
        rcases ih h with ⟨x, hx, hxs⟩
        exact ⟨x, List.mem_cons_of_mem _ hx, hxs⟩

theorem inv_scheduleF : ∀ (n : Nat) {st : MasterState}, Inv st →
    Inv (scheduleF n st) := by
  intro n
  induction n with
  | zero => intro st h; exact h
  | succ n ih =>
    intro st h
    rw [scheduleF]
    cases htp : tryPromote st (sortJobs st.queued) with
    | none => exact h
    | some st1 =>
      rcases tryPromote_eq_some htp with ⟨j, hj, hcard, hth, rfl⟩
      have hjq : j ∈ st.queued := mem_sortJobs.mp hj
      have h1 : Inv (promoteStep j st) := inv_promoteStep h hjq hth
      show Inv (if 1 ≤ (promoteStep j st).slots_available
        then scheduleF n (promoteStep j st) else promoteStep j st)
      by_cases hs : 1 ≤ (promoteStep j st).slots_available
      · rw [if_pos hs]
        exact ih h1
      · rw [if_neg hs]
        exact h1

theorem inv_schedule {st : MasterState} (h : Inv st) : Inv (schedule st) :=
  inv_scheduleF _ h

/-! ### Invariant preservation by the message handlers -/

theorem inv_removeRunning {st st3 : MasterState} {i : Nat} {job : Job}
    (h : Inv st) (hl : lookupJ i st.running = some job)
    (hq : List.Sublist (ids st3.queued) (ids st.queued))
    (hr : st3.running = st.running)
    (hs : st3.slots_available = st.slots_available + (job.threads : Int))
    (ht : st3.slots_total = st.slots_total)
    (hc : st3.current_id = st.current_id) :
    Inv { st3 with running := eraseJ i st3.running } := by
  obtain ⟨h1, h2, h3, h4⟩ := h
  have hsum : sumThreads st.running = sumThreads (eraseJ i st.running) + job.threads :=
    sumThreads_eraseJ hl
  have hide : ids (eraseJ i st.running) = (ids st.running).erase i := ids_eraseJ _ _
  have hsub : List.Sublist (ids st3.queued ++ ids (eraseJ i st3.running))
      (ids st.queued ++ ids st.running) := by
    rw [hr, hide]
    exact hq.append (List.erase_sublist _ _)
  refine ⟨?_, ?_, ?_, ?_⟩
  · exact h1.sublist hsub
  · intro x hx
    show x ≤ st3.current_id
    rw [hc]
    exact h2 x (hsub.subset hx)
  · show st3.slots_available + (sumThreads (eraseJ i st3.running) : Int) = st3.slots_total
    rw [hs, ht, hr]
    omega
  · show (0 : Int) ≤ st3.slots_available
    rw [hs]
    omega

theorem inv_handleDone (i : Nat) (code : Int) {st : MasterState} (h : Inv st) :
    Inv (handleDone i code st) := by
  unfold handleDone
  cases hl : lookupJ i st.running with
  | none => exact h
  | some job =>
    apply inv_schedule
    have hfr1 : SameFrame
        (updateDependencies job
          { st with slots_available := st.slots_available + (job.threads : Int) })
        { st with slots_available := st.slots_available + (job.threads : Int) } :=
      updateDependencies_frame _ _
    by_cases hcode : code ≠ 0
    · rw [if_pos hcode]
      have hfr2 := removeChildren_frame job
        (updateDependencies job
          { st with slots_available := st.slots_available + (job.threads : Int) })
      have hfr := sameFrame_trans hfr2 hfr1
      obtain ⟨f1, f2, f3, f4, f5⟩ := hfr
      refine inv_removeRunning h hl ?_ f1 f2 f3 f5
      refine (removeChildren_sub _ _).trans ?_
      rw [ids_updateDependencies]
    · rw [if_neg hcode]
      obtain ⟨f1, f2, f3, f4, f5⟩ := hfr1
      refine inv_removeRunning h hl ?_ f1 f2 f3 f5
      rw [ids_updateDependencies]

theorem inv_handleCancel (i : Nat) {st : MasterState} (h : Inv st) :
    Inv (handleCancel i st) := by
  unfold handleCancel
  cases hl : lookupJ i st.running with
  | some job =>
    apply inv_schedule
    apply inv_removeChildren
    apply inv_updateDependencies
    exact @inv_removeRunning st
      { st with slots_available := st.slots_available + (job.threads : Int) }
      i job h hl (List.Sublist.refl _) rfl rfl rfl rfl
  | none =>
    cases hl2 : lookupJ i st.queued with
    | some job =>
      apply inv_schedule
      apply inv_removeChildren
      apply inv_updateDependencies
      refine inv_sub_frame (sameFrame_setQueued _ _) ?_ h
      show List.Sublist (ids (eraseJ i st.queued)) (ids st.queued)
      rw [ids_eraseJ]
      exact List.erase_sublist _ _
    | none => exact h

theorem inv_handleSubmit (jd : Job) {st : MasterState} (h : Inv st) :
    Inv (handleSubmit jd st).1 := by
  obtain ⟨h1, h2, h3, h4⟩ := h
  have key : ∀ job : Job, job.job_id = st.current_id + 1 → ∀ ds : List Nat,
      Inv (if 1 ≤ (registerChildren (st.current_id + 1) ds
              { st with current_id := st.current_id + 1,
                        queued := jInsert job st.queued }).slots_available
           then schedule (registerChildren (st.current_id + 1) ds
              { st with current_id := st.current_id + 1,
                        queued := jInsert job st.queued })
           else registerChildren (st.current_id + 1) ds
              { st with current_id := st.current_id + 1,
                        queued := jInsert job st.queued }) := by
    intro job hjid ds
    have hnotq : job.job_id ∉ ids st.queued := by
      intro hc
      have := h2 _ (List.mem_append_left _ hc)
      omega
    have hins : jInsert job st.queued = st.queued ++ [job] := jInsert_fresh hnotq
    have hidapp : ids (st.queued ++ [job]) = ids st.queued ++ [job.job_id] := by
      simp [ids]
    have hperm : List.Perm ((ids st.queued ++ [job.job_id]) ++ ids st.running)
        (job.job_id :: (ids st.queued ++ ids st.running)) := by
      rw [List.append_assoc]
      exact List.perm_middle
    have hinv1 : Inv { st with current_id := st.current_id + 1,
                               queued := jInsert job st.queued } := by
      refine ⟨?_, ?_, ?_, ?_⟩
      · show (ids (jInsert job st.queued) ++ ids st.running).Nodup
        rw [hins, hidapp]
        refine (List.Nodup.perm ?_ hperm.symm)
        refine List.nodup_cons.mpr ⟨?_, h1⟩
        intro hc
        have := h2 _ hc
        omega
      · intro x hx
        show x ≤ st.current_id + 1
        rw [hins, hidapp] at hx
        rcases List.mem_cons.mp (hperm.subset hx) with rfl | hx'
        · omega
        · have := h2 _ hx'
          omega
      · exact h3
      · exact h4
    have hinv2 : Inv (registerChildren (st.current_id + 1) ds
        { st with current_id := st.current_id + 1,
                  queued := jInsert job st.queued }) :=
      inv_of_skel (registerChildren_skel _ _ _) hinv1
    split_ifs with hs
    · exact inv_schedule hinv2
    · exact hinv2
  exact key _ rfl _

theorem inv_stepMsg {st st1 : MasterState} {cont : Bool} :
    ∀ {m : Msg}, Inv st → stepMsg st m = Except.ok (st1, cont) → Inv st1 := by
  intro m h hsm
  cases m with
  | submit jd =>
    rw [stepMsg, Except.ok.injEq, Prod.mk.injEq] at hsm
    rw [← hsm.1]
    exact inv_handleSubmit jd h
  | done i code =>
    rw [stepMsg, Except.ok.injEq, Prod.mk.injEq] at hsm
    rw [← hsm.1]
    exact inv_handleDone i code h
  | failed i err => simp [stepMsg] at hsm
  | cancel i =>
    rw [stepMsg, Except.ok.injEq, Prod.mk.injEq] at hsm
    rw [← hsm.1]
    exact inv_handleCancel i h
  | wait =>
    rw [stepMsg, Except.ok.injEq, Prod.mk.injEq] at hsm
    rw [← hsm.1]
    exact h
  | jobs =>
    rw [stepMsg, Except.ok.injEq, Prod.mk.injEq] at hsm
    rw [← hsm.1]
    exact h
  | exit =>
    rw [stepMsg, Except.ok.injEq, Prod.mk.injEq] at hsm
    rw [← hsm.1]
    exact h

theorem inv_execMsgs : ∀ (msgs : List Msg) (st st' : MasterState), Inv st →
    execMsgs st msgs = Except.ok st' → Inv st' := by
  intro msgs
  induction msgs with
  | nil =>
    intro st st' h hex
    rw [execMsgs] at hex
    cases hex
    exact h
  | cons m rest ih =>
    intro st st' h hex
    rw [execMsgs] at hex
    cases hsm : stepMsg st m with
    | error e =>
      rw [hsm] at hex
      cases hex
    | ok p =>
      obtain ⟨st1, cont⟩ := p
      rw [hsm] at hex
      have h1 : Inv st1 := inv_stepMsg h hsm
      cases cont with
      | true => exact ih _ _ h1 hex
      | false =>
        cases hex
        exact h1

/-! ### What the scheduler promotes -/

theorem mem_running_promoteStep {x j : Job} {st : MasterState}
    (h : x ∈ (promoteStep j st).running) : x = j ∨ x ∈ st.running := by
  have h' : x ∈ (runJob j st).running := h
  rw [runJob] at h'
  by_cases hr : (lookupJ j.job_id st.queued).isSome = true
  · rw [if_pos hr] at h'
    exact mem_jInsert h'
  · rw [if_neg hr] at h'
    exact Or.inr h'

theorem mem_queued_promoteStep {x j : Job} {st : MasterState}
    (h : x ∈ (promoteStep j st).queued) : x ∈ st.queued := by
  have h' : x ∈ (runJob j st).queued := h
  rw [runJob] at h'
  by_cases hr : (lookupJ j.job_id st.queued).isSome = true
  · rw [if_pos hr] at h'
    exact (eraseJ_sublist _ _).subset h'
  · rw [if_neg hr] at h'
    exact h'

theorem mem_running_scheduleF : ∀ (n : Nat) {st : MasterState} {x : Job},
    x ∈ (scheduleF n st).running → x ∈ st.running ∨ x.dependencies.card = 0 := by
  intro n
  induction n with
  | zero => intro st x h; exact Or.inl h
  | succ n ih =>
    intro st x h
    rw [scheduleF] at h
    cases htp : tryPromote st (sortJobs st.queued) with
    | none =>
      rw [htp] at h
      exact Or.inl h
    | some st1 =>
      rw [htp] at h
      rcases tryPromote_eq_some htp with ⟨j, hj, hcard, hth, rfl⟩
      have h2 : x ∈ (if 1 ≤ (promoteStep j st).slots_available
          then scheduleF n (promoteStep j st) else promoteStep j st).running := h
      by_cases hs : 1 ≤ (promoteStep j st).slots_available
      · rw [if_pos hs] at h2
        rcases ih h2 with h3 | h3
        · rcases mem_running_promoteStep h3 with rfl | h4
          · exact Or.inr hcard
          · exact Or.inl h4
        · exact Or.inr h3
      · rw [if_neg hs] at h2
        rcases mem_running_promoteStep h2 with rfl | h4
        · exact Or.inr hcard
        · exact Or.inl h4

theorem tryPromote_none_of_nonpos {st : MasterState} (hs : st.slots_available ≤ 0) :
    ∀ {l : List Job}, (∀ j ∈ l, 1 ≤ j.threads) → tryPromote st l = none := by
  intro l
  induction l with
  | nil => intro h; rfl
  | cons j rest ih =>
    intro hpos
    rw [tryPromote]
    by_cases hd : 0 < j.dependencies.card
    · rw [if_pos hd]
    · rw [if_neg hd]
      have h1 : ¬ ((j.threads : Int) ≤ st.slots_available) := by
        have := hpos j (List.mem_cons_self _ _)
        omega
      rw [if_neg h1]
      exact ih fun x hx => hpos x (List.mem_cons_of_mem _ hx)

theorem pos_threads_promoteStep {j : Job} {st : MasterState}
    (hq : ∀ x ∈ st.queued, 1 ≤ x.threads) :
    ∀ x ∈ (promoteStep j st).queued, 1 ≤ x.threads :=
  fun x hx => hq x (mem_queued_promoteStep hx)

theorem scheduleF_eq_scheduleRefF : ∀ (n : Nat) {st : MasterState},
    (∀ x ∈ st.queued, 1 ≤ x.threads) → scheduleF n st = scheduleRefF n st := by
  intro n
  induction n with
  | zero => intro st h; rfl
  | succ n ih =>
    intro st hq
    rw [scheduleF, scheduleRefF]
    cases htp : tryPromote st (sortJobs st.queued) with
    | none => rfl
    | some st1 =>
      rcases tryPromote_eq_some htp with ⟨j, hj, hcard, hth, rfl⟩
      have hq1 : ∀ x ∈ (promoteStep j st).queued, 1 ≤ x.threads :=
        pos_threads_promoteStep hq
      show (if 1 ≤ (promoteStep j st).slots_available
          then scheduleF n (promoteStep j st) else promoteStep j st)
        = scheduleRefF n (promoteStep j st)
      by_cases hs : 1 ≤ (promoteStep j st).slots_available
      · rw [if_pos hs]
        exact ih hq1
      · rw [if_neg hs]
        cases n with
        | zero => rfl
        | succ m =>
          rw [scheduleRefF,
            tryPromote_none_of_nonpos (by omega) fun x hx => hq1 x (mem_sortJobs.mp hx)]

theorem queued_addChildToR (b d : Nat) (st : MasterState) :
    (addChildToR b d st).queued = st.queued := by
  rw [addChildToR]
  split_ifs with h1
  · rfl
  · rfl

theorem pos_threads_registerChildren (b : Nat) : ∀ (ds : List Nat)
    (st : MasterState), (∀ x ∈ st.queued, 1 ≤ x.threads) →
    ∀ x ∈ (registerChildren b ds st).queued, 1 ≤ x.threads := by
  intro ds
  induction ds with
  | nil => intro st h; exact h
  | cons d ds ih =>
    intro st h
    rw [registerChildren]
    apply ih
    intro x hx
    have hx' : x ∈ (addChildToQ b d st).queued := by
      rw [addChildTo, queued_addChildToR] at hx
      exact hx
    rw [addChildToQ] at hx'
    split_ifs at hx' with hc
    · rcases mem_modifyJ hx' with h1 | ⟨y, hy, hyi, rfl⟩
      · exact h x h1
      · have := h y hy
        rw [addChild_threads]
        exact this
    · exact h x hx'

/-! ### Claim theorems -/

/-- Claim C3: in every state of the master reachable from a fresh master by
handling any sequence of messages to completion, `slots_available` plus the
total `thread_count` of the jobs in the running map equals `slots_total`,
and in particular that total never exceeds `slots_total`. -/
theorem claim_c3_slot_accounting (cores : Nat) (msgs : List Msg)
    (st : MasterState) (h : execMsgs (initState cores) msgs = Except.ok st) :
    st.slots_available + (sumThreads st.running : Int) = st.slots_total ∧
    (sumThreads st.running : Int) ≤ st.slots_total := by
  obtain ⟨h1, h2, h3, h4⟩ := inv_execMsgs msgs _ st (inv_initState cores) h
  exact ⟨h3, by omega⟩

/-- witness for C3 at a concrete run: one submission to a two-slot master. -/
theorem claim_c3_witness :
    execMsgs (initState 2) [Msg.submit { job_id := 0 }] = Except.ok c3WitState ∧
    (c3WitState.slots_available + (sumThreads c3WitState.running : Int) =
        c3WitState.slots_total ∧
      (sumThreads c3WitState.running : Int) ≤ c3WitState.slots_total) :=
  ⟨by rfl, claim_c3_slot_accounting 2 [Msg.submit { job_id := 0 }] c3WitState (by rfl)⟩

/-- Claim C4: the scheduler pass scans the queued jobs in the stable
ascending `(dependency count, id)` order of `_Job.__lt__`, the scan stops
at the first job whose dependency set is non-empty, and consequently a job
with a non-empty dependency set is never promoted from queued to
running. -/
theorem claim_c4_no_dep_promotion (st : MasterState) :
    (List.Perm (sortJobs st.queued) st.queued ∧
      (sortJobs st.queued).Sorted JobOrd) ∧
    (∀ (j : Job) (rest : List Job), 0 < j.dependencies.card →
      tryPromote st (j :: rest) = none) ∧
    (∀ j : Job, j ∈ (schedule st).running → j ∈ st.running ∨ j.dependencies = ∅) := by
  refine ⟨⟨sortJobs_perm _, sorted_sortJobs _⟩, ?_, ?_⟩
  · intro j rest hd
    rw [tryPromote, if_pos hd]
  · intro j hj
    rcases mem_running_scheduleF _ hj with h | h
    · exact Or.inl h
    · exact Or.inr (Finset.card_eq_zero.mp h)

/-- witness for C4: a dependency-free queued job is promoted by the
scheduler and the theorem applies to it. -/
theorem claim_c4_witness :
    c4WitJob ∈ (schedule c4WitState).running ∧
    (c4WitJob ∈ c4WitState.running ∨ c4WitJob.dependencies = ∅) :=
  ⟨by decide, (claim_c4_no_dep_promotion c4WitState).2.2 c4WitJob (by decide)⟩

/-- Claim C7: given positive thread counts, the scheduler pass with its
guarded restart (`slots_available >= 1` before the recursive pass) equals
the reference scheduler that restarts unconditionally after every
promotion, and the submit handler with its guarded scheduler invocation
equals the reference submit handler that always runs the scheduler pass. -/
theorem claim_c7_guarded_restart_refinement (st : MasterState) (jd : Job)
    (hq : ∀ j ∈ st.queued, 1 ≤ j.threads) (hjd : 1 ≤ jd.threads) :
    schedule st = scheduleRef st ∧ handleSubmit jd st = handleSubmitRef jd st := by
  have key : ∀ st2 : MasterState, (∀ x ∈ st2.queued, 1 ≤ x.threads) →
      (if 1 ≤ st2.slots_available then schedule st2 else st2) = scheduleRef st2 := by
    intro st2 h2
    by_cases hs : 1 ≤ st2.slots_available
    · rw [if_pos hs]
      exact scheduleF_eq_scheduleRefF _ h2
    · rw [if_neg hs]
      rw [scheduleRef, scheduleRefF,
        tryPromote_none_of_nonpos (by omega) fun x hx => h2 x (mem_sortJobs.mp hx)]
  constructor
  · exact scheduleF_eq_scheduleRefF _ hq
  · have key2 : ∀ (job : Job) (ds : List Nat), job.threads = jd.threads →
        (if 1 ≤ (registerChildren (st.current_id + 1) ds
            { st with current_id := st.current_id + 1,
                      queued := jInsert job st.queued }).slots_available
         then schedule (registerChildren (st.current_id + 1) ds
            { st with current_id := st.current_id + 1,
                      queued := jInsert job st.queued })
         else registerChildren (st.current_id + 1) ds
            { st with current_id := st.current_id + 1,
                      queued := jInsert job st.queued })
        = scheduleRef (registerChildren (st.current_id + 1) ds
            { st with current_id := st.current_id + 1,
                      queued := jInsert job st.queued }) := by
      intro job ds hth
      apply key
      apply pos_threads_registerChildren
      intro x hx
      rcases mem_jInsert hx with rfl | hx'
      · rw [hth]
        exact hjd
      · exact hq x hx'
    refine Prod.ext ?_ rfl
    exact key2 _ _ rfl

/-- witness for C7 at a one-slot master whose queued job does not fit. -/
theorem claim_c7_witness :
    (∀ j ∈ c7WitState.queued, 1 ≤ j.threads) ∧ 1 ≤ c7WitJob.threads ∧
    (schedule c7WitState = scheduleRef c7WitState ∧
      handleSubmit c7WitJob c7WitState = handleSubmitRef c7WitJob c7WitState) :=
  ⟨by decide, by decide,
    claim_c7_guarded_restart_refinement c7WitState c7WitJob (by decide) (by decide)⟩

/-- Claim C1 (code evidence): the FAILED handler dereferences the
misspelled attribute `self.unning` before touching any state, so for every
state and every FAILED message — in particular one whose id is running — it
raises AttributeError and the master loop breaks with the state unchanged,
performing none of the cleanup; the claimed equivalent nonzero DONE on the
same state reclaims the slot, cascades the queued dependent away and
removes the job from running. -/
theorem claim_c1_failed_handler_broken :
    (∀ (st : MasterState) (i : Nat) (err : String),
      stepMsg st (Msg.failed i err) = Except.error MasterError.attributeError) ∧
    masterRun c1WitState [Msg.failed 1 errText, Msg.jobs] =
      (c1WitState, [Msg.jobs]) ∧
    (handleDone 1 1 c1WitState).running = [] ∧
    (handleDone 1 1 c1WitState).queued = [] ∧
    (handleDone 1 1 c1WitState).slots_available = 3 :=
  ⟨fun st i err => rfl, by decide, by decide, by decide, by decide⟩

/-- Claim C2 (code evidence): a stale DONE or CANCEL notice leaves the
state unchanged and the loop keeps processing later messages, but a stale
FAILED notice raises AttributeError (`self.unning`) and terminates the
loop, leaving the rest of the queue unprocessed. -/
theorem claim_c2_stale_failed_fatal :
    handleDone 7 0 (initState 2) = initState 2 ∧
    handleCancel 9 (initState 2) = initState 2 ∧
    masterRun (initState 2) [Msg.done 7 0, Msg.cancel 9, Msg.jobs] =
      (initState 2, []) ∧
    masterRun (initState 2) [Msg.failed 7 errText, Msg.jobs] =
      (initState 2, [Msg.jobs]) :=
  ⟨by decide, by decide, by decide, by decide⟩

/-- Counterexample to C8 as stated: on the launch-fault path the executor
sends two terminal notices for its job id (FAILED, then the fall-through
DONE), not exactly one. -/
theorem claim_c8_counterexample :
    ((executorMessages 3 (ExecOutcome.fault errText)).countP (isNoticeFor 3)) ≠ 1 := by
  decide

/-- Claim C8 (amended): every executor run sends exactly one completion
notice for its job id, which is its final message; a failure notice is sent
exactly once on the fault path and never otherwise, so each run produces
one or two terminal notices, never zero. -/
theorem claim_c8_executor_notices (i : Nat) (o : ExecOutcome) :
    (executorMessages i o).countP (isDoneFor i) = 1 ∧
    (executorMessages i o).countP (isFailedFor i) =
      (match o with
        | ExecOutcome.fault _ => 1
        | _ => 0) ∧
    (executorMessages i o).getLast? = some (Msg.done i (match o with
        | ExecOutcome.normal code => code
        | ExecOutcome.fault _ => -1
        | ExecOutcome.signaled => 1)) := by
  cases o <;> simp [executorMessages, isDoneFor, isFailedFor]

/-- Claim C9: the WAIT handler only sets the drain flag and changes
nothing else, and a master whose drain flag is set exits its loop as soon
as both maps are empty, consuming no further messages and needing no EXIT
message. -/
theorem claim_c9_drain_exit (st : MasterState) (msgs : List Msg) :
    handleWait st = { st with wait_mode := true } ∧
    (st.wait_mode = true → numJobs st = 0 → masterRun st msgs = (st, msgs)) := by
  refine ⟨rfl, ?_⟩
  intro hw hn
  cases msgs with
  | nil => rw [masterRun]
  | cons m rest => rw [masterRun, if_pos ⟨hw, hn⟩]

/-- witness for C9: an idle draining master does not consume a pending
message. -/
theorem claim_c9_witness :
    c9WitState.wait_mode = true ∧ numJobs c9WitState = 0 ∧
    masterRun c9WitState [Msg.jobs] = (c9WitState, [Msg.jobs]) :=
  ⟨rfl, rfl, (claim_c9_drain_exit c9WitState [Msg.jobs]).2 rfl rfl⟩

/-- Claim C10: on a facade whose master process is not running, submit
fails with SubmissionError while list returns the empty list and cancel,
wait and shutdown return normally; none of the five operations sends any
message. -/
theorem claim_c10_facade_no_master (cwd0 : String) (job : Job) (i : Nat)
    (reply : List Nat) :
    clSubmit ⟨false⟩ cwd0 job = Except.error SubErr.noMaster ∧
    clList ⟨false⟩ reply = ([], []) ∧
    clCancel ⟨false⟩ i = [] ∧ clWait ⟨false⟩ = [] ∧ clShutdown ⟨false⟩ = [] :=
  ⟨rfl, rfl, rfl, rfl, rfl⟩

/-! ### Lookup preservation, for the mirrored-edge claim -/

theorem lookupAll_isSome {i : Nat} {st : MasterState}
    (h : i ∈ ids st.queued ∨ i ∈ ids st.running) :
    ∃ A, lookupAll i st = some A := by
  rw [lookupAll]
  cases hq : lookupJ i st.queued with
  | some j => exact ⟨j, rfl⟩
  | none =>
    rcases h with h | h
    · exact absurd h (lookupJ_eq_none.mp hq)
    · rcases Option.isSome_iff_exists.mp (lookupJ_isSome.mpr h) with ⟨j, hj⟩
      exact ⟨j, hj⟩

theorem nodup_promoteStep {j : Job} {st : MasterState}
    (h : (ids st.queued ++ ids st.running).Nodup) :
    (ids (promoteStep j st).queued ++ ids (promoteStep j st).running).Nodup := by
  by_cases hrun : (lookupJ j.job_id st.queued).isSome = true
  · have hmemq : j.job_id ∈ ids st.queued := lookupJ_isSome.mp hrun
    have hnr : j.job_id ∉ ids st.running := by
      rcases List.nodup_append.mp h with ⟨hh1, hh2, hdisj⟩
      exact fun hc => hdisj hmemq hc
    have hins : jInsert j st.running = st.running ++ [j] := jInsert_fresh hnr
    have hq : ids (promoteStep j st).queued = (ids st.queued).erase j.job_id := by
      show ids (runJob j st).queued = _
      rw [runJob, if_pos hrun]
      exact ids_eraseJ _ _
    have hr : ids (promoteStep j st).running = ids st.running ++ [j.job_id] := by
      show ids (runJob j st).running = _
      rw [runJob, if_pos hrun]
      show ids (jInsert j st.running) = _
      rw [hins]
      simp [ids]
    rw [hq, hr]
    have hperm : List.Perm
        ((ids st.queued).erase j.job_id ++ (ids st.running ++ [j.job_id]))
        (ids st.queued ++ ids st.running) := by
      have p1 : List.Perm (ids st.running ++ [j.job_id]) (j.job_id :: ids st.running) :=
        List.perm_append_singleton _ _
      have p2 := p1.append_left ((ids st.queued).erase j.job_id)
      have p3 : List.Perm
          ((ids st.queued).erase j.job_id ++ (j.job_id :: ids st.running))
          (j.job_id :: ((ids st.queued).erase j.job_id ++ ids st.running)) :=
        List.perm_middle
      have p5 : List.Perm (j.job_id :: (ids st.queued).erase j.job_id) (ids st.queued) :=
        (List.perm_cons_erase hmemq).symm
      exact p2.trans (p3.trans (p5.append_right (ids st.running)))
    exact h.perm hperm.symm
  · have hq : (promoteStep j st).queued = st.queued := by
      show (runJob j st).queued = _
      rw [runJob, if_neg hrun]
    have hr : (promoteStep j st).running = st.running := by
      show (runJob j st).running = _
      rw [runJob, if_neg hrun]
    rw [hq, hr]
    exact h

theorem lookupAll_promoteStep {j : Job} {st : MasterState}
    (hnd : (ids st.queued ++ ids st.running).Nodup) (hj : j ∈ st.queued) :
    ∀ i, lookupAll i (promoteStep j st) = lookupAll i st := by
  intro i
  have hndq : (ids st.queued).Nodup := (List.nodup_append.mp hnd).1
  have hmemq : j.job_id ∈ ids st.queued := mem_ids_of_mem hj
  have hrun : (lookupJ j.job_id st.queued).isSome = true := lookupJ_isSome.mpr hmemq
  have hq : (promoteStep j st).queued = eraseJ j.job_id st.queued := by
    show (runJob j st).queued = _
    rw [runJob, if_pos hrun]
  have hr : (promoteStep j st).running = jInsert j st.running := by
    show (runJob j st).running = _
    rw [runJob, if_pos hrun]
  by_cases hij : i = j.job_id
  · have hqe : lookupJ i (eraseJ j.job_id st.queued) = none := by
      rw [lookupJ_eq_none, ids_eraseJ, hij]
      exact hndq.not_mem_erase
    have hlq : lookupJ i st.queued = some j := by
      rw [hij]
      exact lookupJ_self hndq hj
    rw [lookupAll, hq, hqe, hr, lookupAll, hlq, hij]
    exact lookupJ_jInsert_self j st.running
  · rw [lookupAll, hq, lookupJ_eraseJ_ne _ hij, lookupAll]
    cases hlq : lookupJ i st.queued with
    | some a => rfl
    | none =>
      rw [hr]
      exact lookupJ_jInsert_ne _ hij

theorem lookupAll_scheduleF : ∀ (n : Nat) {st : MasterState},
    (ids st.queued ++ ids st.running).Nodup →
    ∀ i, lookupAll i (scheduleF n st) = lookupAll i st := by
  intro n
  induction n with
  | zero => intro st h i; rfl
  | succ n ih =>
    intro st h i
    rw [scheduleF]
    cases htp : tryPromote st (sortJobs st.queued) with
    | none => rfl
    | some st1 =>
      rcases tryPromote_eq_some htp with ⟨j, hj, hcard, hth, rfl⟩
      have hjq : j ∈ st.queued := mem_sortJobs.mp hj
      show lookupAll i (if 1 ≤ (promoteStep j st).slots_available
          then scheduleF n (promoteStep j st) else promoteStep j st) = lookupAll i st
      by_cases hs : 1 ≤ (promoteStep j st).slots_available
      · rw [if_pos hs, ih (nodup_promoteStep h), lookupAll_promoteStep h hjq]
      · rw [if_neg hs, lookupAll_promoteStep h hjq]

theorem lookupAll_addChildTo (b d : Nat) (st : MasterState) :
    ((lookupAll d (addChildTo b d st)) = (lookupAll d st).map (addChild b)) ∧
    ∀ i, i ≠ d → lookupAll i (addChildTo b d st) = lookupAll i st := by
  have hidp : ∀ x : Job, (addChild b x).job_id = x.job_id := fun x => rfl
  have hqQ : ∀ i, lookupJ i (addChildToQ b d st).queued =
      (if i = d then (lookupJ i st.queued).map (addChild b) else lookupJ i st.queued) := by
    intro i
    rw [addChildToQ]
    split_ifs with hin hie hie
    · subst hie
      exact lookupJ_modifyJ_self hidp _
    · exact lookupJ_modifyJ_ne hidp _ hie
    · subst hie
      rw [Option.not_isSome_iff_eq_none.mp hin]
      rfl
    · rfl
  have hrQ : (addChildToQ b d st).running = st.running := by
    rw [addChildToQ]
    split_ifs <;> rfl
  have hqR : ∀ st', (addChildToR b d st').queued = st'.queued := by
    intro st'
    rw [addChildToR]
    split_ifs <;> rfl
  have hrR : ∀ (st' : MasterState) i, lookupJ i (addChildToR b d st').running =
      (if i = d then (lookupJ i st'.running).map (addChild b)
       else lookupJ i st'.running) := by
    intro st' i
    rw [addChildToR]
    split_ifs with hin hie hie
    · subst hie
      exact lookupJ_modifyJ_self hidp _
    · exact lookupJ_modifyJ_ne hidp _ hie
    · subst hie
      rw [Option.not_isSome_iff_eq_none.mp hin]
      rfl
    · rfl
  constructor
  · rw [lookupAll, addChildTo, hqR, hqQ, if_pos rfl]
    cases hlq : lookupJ d st.queued with
    | some a =>
      rw [lookupAll, hlq]
      rfl
    | none =>
      rw [hrR, if_pos rfl, hrQ, lookupAll, hlq]
      rfl
  · intro i hie
    rw [lookupAll, addChildTo, hqR, hqQ, if_neg hie, lookupAll]
    cases hlq : lookupJ i st.queued with
    | some a => rfl
    | none => rw [hrR, if_neg hie, hrQ]

theorem lookupAll_registerChildren (b : Nat) : ∀ (ds : List Nat)
    (st : MasterState) (i : Nat) (A : Job), lookupAll i st = some A →
    ∃ A', lookupAll i (registerChildren b ds st) = some A' ∧
      A'.dependencies = A.dependencies ∧ A.children ⊆ A'.children ∧
      (i ∈ ds → b ∈ A'.children) := by
  intro ds
  induction ds with
  | nil =>
    intro st i A h
    exact ⟨A, h, rfl, Finset.Subset.refl _, fun hc => absurd hc (List.not_mem_nil _)⟩
  | cons d ds ih =>
    intro st i A h
    rw [registerChildren]
    by_cases hid : i = d
    · subst hid
      have h1 : lookupAll i (addChildTo b i st) = some (addChild b A) := by
        rw [(lookupAll_addChildTo b i st).1, h]
        rfl
      rcases ih _ _ _ h1 with ⟨A', hA', hdep, hsub, hmem⟩
      refine ⟨A', hA', ?_, ?_, fun _ => ?_⟩
      · rw [hdep]
        rfl
      · refine Finset.Subset.trans ?_ hsub
        rw [addChild]
        exact Finset.subset_insert _ _
      · exact hsub (by rw [addChild]; exact Finset.mem_insert_self _ _)
    · have h1 : lookupAll i (addChildTo b d st) = some A := by
        rw [(lookupAll_addChildTo b d st).2 i hid, h]
      rcases ih _ _ _ h1 with ⟨A', hA', hdep, hsub, hmem⟩
      refine ⟨A', hA', hdep, hsub, fun hin => ?_⟩
      rcases List.mem_cons.mp hin with h2 | h2
      · exact absurd h2 hid
      · exact hmem h2

theorem mem_sortedNats {i : Nat} {s : Finset Nat} : i ∈ sortedNats s ↔ i ∈ s := by
  rw [sortedNats, List.mem_filter, List.mem_range]
  constructor
  · rintro ⟨h1, h2⟩
    simpa using h2
  · intro h
    refine ⟨?_, by simpa⟩
    have hle : id i ≤ s.sup id := Finset.le_sup h
    simp only [id] at hle
    omega

theorem lookupAll_mem {i : Nat} {st : MasterState} {A : Job}
    (h : lookupAll i st = some A) : i ∈ ids st.queued ∨ i ∈ ids st.running := by
  rw [lookupAll] at h
  cases hq : lookupJ i st.queued with
  | some a =>
    left
    exact (lookupJ_eq_some hq).2 ▸ mem_ids_of_mem (lookupJ_eq_some hq).1
  | none =>
    rw [hq] at h
    right
    exact (lookupJ_eq_some h).2 ▸ mem_ids_of_mem (lookupJ_eq_some h).1

theorem submitCore_edges (st : MasterState) (job : Job) (ds : List Nat)
    (hnd : (ids st.queued ++ ids st.running).Nodup)
    (hbound : ∀ i ∈ ids st.queued ++ ids st.running, i ≤ st.current_id)
    (hjid : job.job_id = st.current_id + 1) :
    (∀ d A, lookupAll d st = some A → d ∈ ds →
      ∃ A', lookupAll d (submitCore job ds st) = some A' ∧
        st.current_id + 1 ∈ A'.children) ∧
    (∃ B, lookupAll (st.current_id + 1) (submitCore job ds st) = some B ∧
      B.dependencies = job.dependencies) := by
  have hnotq : job.job_id ∉ ids st.queued := by
    intro hc
    have := hbound _ (List.mem_append_left _ hc)
    omega
  have hins : jInsert job st.queued = st.queued ++ [job] := jInsert_fresh hnotq
  have hidapp : ids (st.queued ++ [job]) = ids st.queued ++ [job.job_id] := by
    simp [ids]
  have hnd1 : (ids (submitInserted job st).queued ++ ids (submitInserted job st).running).Nodup := by
    show (ids (jInsert job st.queued) ++ ids st.running).Nodup
    rw [hins, hidapp]
    have hperm : List.Perm ((ids st.queued ++ [job.job_id]) ++ ids st.running)
        (job.job_id :: (ids st.queued ++ ids st.running)) := by
      rw [List.append_assoc]
      exact List.perm_middle
    refine List.Nodup.perm ?_ hperm.symm
    refine List.nodup_cons.mpr ⟨?_, hnd⟩
    intro hc
    have := hbound _ hc
    omega
  have hlookup_new : lookupAll (st.current_id + 1) (submitInserted job st) = some job := by
    rw [lookupAll]
    have : lookupJ (st.current_id + 1) (submitInserted job st).queued = some job := by
      show lookupJ (st.current_id + 1) (jInsert job st.queued) = some job
      rw [← hjid]
      exact lookupJ_jInsert_self job st.queued
    rw [this]
  have hlookup_old : ∀ d A, lookupAll d st = some A → d ≤ st.current_id →
      lookupAll d (submitInserted job st) = some A := by
    intro d A hA hdle
    have hdne : d ≠ job.job_id := by omega
    rw [lookupAll] at hA ⊢
    have hq1 : lookupJ d (submitInserted job st).queued = lookupJ d st.queued := by
      show lookupJ d (jInsert job st.queued) = _
      exact lookupJ_jInsert_ne _ hdne
    rw [hq1]
    exact hA
  have hnd2 : (ids (registerChildren (st.current_id + 1) ds (submitInserted job st)).queued ++
      ids (registerChildren (st.current_id + 1) ds (submitInserted job st)).running).Nodup := by
    obtain ⟨u1, u2, u3, u4, u5, u6, u7⟩ :=
      registerChildren_skel (st.current_id + 1) ds (submitInserted job st)
    rw [u1, u2]
    exact hnd1
  have sched_pres : ∀ i : Nat,
      lookupAll i (submitCore job ds st) =
      lookupAll i (registerChildren (st.current_id + 1) ds (submitInserted job st)) := by
    intro i
    show lookupAll i (if 1 ≤ (registerChildren (st.current_id + 1) ds
          (submitInserted job st)).slots_available
        then schedule (registerChildren (st.current_id + 1) ds (submitInserted job st))
        else registerChildren (st.current_id + 1) ds (submitInserted job st)) = _
    by_cases hs : 1 ≤ (registerChildren (st.current_id + 1) ds
        (submitInserted job st)).slots_available
    · rw [if_pos hs]
      exact lookupAll_scheduleF _ hnd2 i
    · rw [if_neg hs]
  constructor
  · intro d A hA hds
    have hdle : d ≤ st.current_id := by
      rcases lookupAll_mem hA with h | h
      · exact hbound d (List.mem_append_left _ h)
      · exact hbound d (List.mem_append_right _ h)
    rcases lookupAll_registerChildren (st.current_id + 1) ds (submitInserted job st) d A
        (hlookup_old d A hA hdle) with ⟨A', hA', hdep, hsub, hmem⟩
    exact ⟨A', by rw [sched_pres]; exact hA', hmem hds⟩
  · rcases lookupAll_registerChildren (st.current_id + 1) ds (submitInserted job st)
        (st.current_id + 1) job hlookup_new with ⟨B, hB, hdep, hsub, hmem⟩
    exact ⟨B, by rw [sched_pres]; exact hB, hdep⟩

/-- Claim C6: after a submit message is handled, for every dependency id
`d` of the submitted job that was present in the queued or running map,
the edges are mirrored: the job stored under `d` carries the newly
assigned id in its `children`, and the new job is stored with `d` still in
its `dependencies` (both established within that single submit handling
step). -/
theorem claim_c6_mirrored_edges (st : MasterState) (jd : Job)
    (hnd : (ids st.queued ++ ids st.running).Nodup)
    (hbound : ∀ i ∈ ids st.queued ++ ids st.running, i ≤ st.current_id) :
    ∀ d ∈ jd.dependencies, (d ∈ ids st.queued ∨ d ∈ ids st.running) →
      (∃ A, lookupAll d (handleSubmit jd st).1 = some A ∧
        (handleSubmit jd st).2 ∈ A.children) ∧
      (∃ B, lookupAll (handleSubmit jd st).2 (handleSubmit jd st).1 = some B ∧
        d ∈ B.dependencies) := by
  intro d hdep hpresent
  rcases lookupAll_isSome hpresent with ⟨A, hA⟩
  have hedges := submitCore_edges st
    { jd with job_id := st.current_id + 1,
              stdout := resolveLog (st.current_id + 1) jd.stdout,
              stderr := resolveLog (st.current_id + 1) jd.stderr }
    (sortedNats jd.dependencies) hnd hbound rfl
  constructor
  · rcases hedges.1 d A hA (mem_sortedNats.mpr hdep) with ⟨A', h1, h2⟩
    exact ⟨A', h1, h2⟩
  · rcases hedges.2 with ⟨B, hB1, hB2⟩
    refine ⟨B, hB1, ?_⟩
    rw [hB2]
    exact hdep

/-- witness for C6: submitting a job depending on the running job 1. -/
theorem claim_c6_witness :
    ((ids c6WitState.queued ++ ids c6WitState.running).Nodup ∧
      (∀ i ∈ ids c6WitState.queued ++ ids c6WitState.running,
        i ≤ c6WitState.current_id) ∧
      (1 : Nat) ∈ c6WitJob.dependencies ∧ 1 ∈ ids c6WitState.running) ∧
    ((∃ A, lookupAll 1 (handleSubmit c6WitJob c6WitState).1 = some A ∧
        (handleSubmit c6WitJob c6WitState).2 ∈ A.children) ∧
      (∃ B, lookupAll (handleSubmit c6WitJob c6WitState).2
          (handleSubmit c6WitJob c6WitState).1 = some B ∧
        1 ∈ B.dependencies)) :=
  ⟨⟨by decide, by decide, by decide, by decide⟩,
    claim_c6_mirrored_edges c6WitState c6WitJob (by decide) (by decide) 1
      (by decide) (Or.inr (by decide))⟩

/-! ### Helper lemmas for the cascade-removal claim -/

theorem remChildList_nil (f : Nat) (st : MasterState) :
    remChildList f [] st = st := by
  cases f <;> rfl

theorem remChildList_cons (f : Nat) (c : Nat) (cs : List Nat) (st : MasterState) :
    remChildList f (c :: cs) st =
      match lookupJ c st.queued with
      | none => remChildList f cs st
      | some child =>
        remChildList f cs
          { updateDependencies child
              (match f with
               | 0 => st
               | f' + 1 => remChildList f' (sortedNats child.children) st) with
            queued := eraseJ c (updateDependencies child
              (match f with
               | 0 => st
               | f' + 1 => remChildList f' (sortedNats child.children) st)).queued } := by
  cases f <;> rfl

theorem mem_eraseJ_of_ne {j : Job} {c : Nat} :
    ∀ {l : List Job}, j ∈ l → j.job_id ≠ c → j ∈ eraseJ c l := by
  intro l
  induction l with
  | nil => intro h; cases h
  | cons x xs ih =>
    intro h hne
    rcases List.mem_cons.mp h with rfl | hxs
    · rw [eraseJ, if_neg hne]
      exact List.mem_cons_self _ _
    · by_cases hx : x.job_id = c
      · rw [eraseJ, if_pos hx]
        exact hxs
      · rw [eraseJ, if_neg hx]
        exact List.mem_cons_of_mem _ (ih hxs hne)

theorem mem_updDepsList_of_ne (p : Nat) : ∀ (ts : List Nat) (q : List Job)
    (j : Job), j ∈ q → (∀ t ∈ ts, t ≠ j.job_id) → j ∈ updDepsList p ts q := by
  intro ts
  induction ts with
  | nil => intro q j h _; exact h
  | cons t ts ih =>
    intro q j h hne
    rw [updDepsList]
    refine ih _ _ ?_ fun x hx => hne x (List.mem_cons_of_mem _ hx)
    exact mem_modifyJ_of_ne h fun hc => hne t (List.mem_cons_self _ _) hc.symm

theorem mem_updDepsList_inv (p : Nat) : ∀ (ts : List Nat) (q : List Job)
    (j : Job), j ∈ updDepsList p ts q →
    ∃ y ∈ q, y.job_id = j.job_id ∧ y.children = j.children := by
  intro ts
  induction ts with
  | nil => intro q j h; exact ⟨j, h, rfl, rfl⟩
  | cons t ts ih =>
    intro q j h
    rw [updDepsList] at h
    rcases ih _ _ h with ⟨y, hy, hid, hch⟩
    rcases mem_modifyJ hy with h1 | ⟨z, hz, hzi, rfl⟩
    · exact ⟨y, h1, hid, hch⟩
    · exact ⟨z, hz, hid, hch⟩

theorem eq_of_mem_of_id_eq {l : List Job} (hnd : (ids l).Nodup) {a b : Job}
    (ha : a ∈ l) (hb : b ∈ l) (hid : a.job_id = b.job_id) : a = b := by
  have h1 := lookupJ_self hnd ha
  have h2 := lookupJ_self hnd hb
  rw [hid] at h1
  rw [h1] at h2
  exact Option.some_injective _ h2

theorem countP_mono_of_imp {p q : Nat → Bool} :
    ∀ {l : List Nat}, (∀ a, p a = true → q a = true) →
    l.countP p ≤ l.countP q := by
  intro l
  induction l with
  | nil => intro h; exact Nat.le_refl _
  | cons x xs ih =>
    intro h
    have := ih h
    by_cases hp : p x = true
    · rw [List.countP_cons_of_pos _ _ hp, List.countP_cons_of_pos _ _ (h x hp)]
      omega
    · rw [List.countP_cons_of_neg _ _ (by simpa using hp)]
      by_cases hq : q x = true
      · rw [List.countP_cons_of_pos _ _ hq]
        omega
      · rw [List.countP_cons_of_neg _ _ (by simpa using hq)]
        omega

theorem countP_lt_of_mem_gt {c a : Nat} : ∀ {l : List Nat}, a ∈ l → c < a →
    l.countP (fun y => decide (a < y)) < l.countP (fun y => decide (c < y)) := by
  intro l
  induction l with
  | nil => intro h; cases h
  | cons x xs ih =>
    intro ha hca
    have hmono : xs.countP (fun y => decide (a < y)) ≤
        xs.countP (fun y => decide (c < y)) := by
      refine countP_mono_of_imp fun y hy => ?_
      simp only [decide_eq_true_eq] at hy ⊢
      omega
    rcases List.mem_cons.mp ha with rfl | hxs
    · rw [List.countP_cons_of_neg (fun y => decide (a < y)) xs (by simp),
        List.countP_cons_of_pos (fun y => decide (c < y)) xs (by simpa)]
      omega
    · have := ih hxs hca
      by_cases hax : (decide (a < x)) = true
      · have hcx : (decide (c < x)) = true := by
          simp only [decide_eq_true_eq] at hax ⊢
          omega
        rw [List.countP_cons_of_pos (fun y => decide (a < y)) xs hax,
          List.countP_cons_of_pos (fun y => decide (c < y)) xs hcx]
        omega
      · rw [List.countP_cons_of_neg (fun y => decide (a < y)) xs (by simpa using hax)]
        by_cases hcx : (decide (c < x)) = true
        · rw [List.countP_cons_of_pos (fun y => decide (c < y)) xs hcx]
          omega
        · rw [List.countP_cons_of_neg (fun y => decide (c < y)) xs (by simpa using hcx)]
          omega

/-- The heart of the cascade claim, by strong induction on the fuel with an
inner induction on the worklist: processing a worklist of descendant ids on
a state whose queued map is carved out of the original `q0` (same ids and
children, non-descendants untouched) yields a state that still has that
shape, only shrinks the id set, removes every worklist id, and removes the
children of everything it removes. -/
theorem remCL_cascade (q0 : List Job) (roots : Finset Nat)
    (hq0 : (ids q0).Nodup) (hinc0 : IdIncreasing q0) :
    ∀ (f : Nat) (cs : List Nat) (cur : MasterState),
    (∀ j ∈ cur.queued, ∃ j0 ∈ q0, j0.job_id = j.job_id ∧ j0.children = j.children) →
    (∀ j0 ∈ q0, ¬ QReach q0 roots j0.job_id → j0 ∈ cur.queued) →
    List.Sublist (ids cur.queued) (ids q0) →
    (∀ x ∈ cs, x ∈ ids q0 → QReach q0 roots x) →
    (∀ x ∈ cs, x ∈ ids cur.queued →
      (ids cur.queued).countP (fun y => decide (x < y)) ≤ f) →
    ((∀ j ∈ (remChildList f cs cur).queued,
        ∃ j0 ∈ q0, j0.job_id = j.job_id ∧ j0.children = j.children) ∧
     (∀ j0 ∈ q0, ¬ QReach q0 roots j0.job_id →
        j0 ∈ (remChildList f cs cur).queued) ∧
     List.Sublist (ids (remChildList f cs cur).queued) (ids cur.queued) ∧
     (∀ x ∈ cs, x ∉ ids (remChildList f cs cur).queued) ∧
     (∀ j0 ∈ q0, j0.job_id ∈ ids cur.queued →
        j0.job_id ∉ ids (remChildList f cs cur).queued →
        ∀ ch ∈ j0.children, ch ∉ ids (remChildList f cs cur).queued)) := by
  intro f
  induction f using Nat.strong_induction_on with
  | _ f IHf =>
    intro cs
    induction cs with
    | nil =>
      intro cur h1 h2 h3 h4 h5
      rw [remChildList_nil]
      exact ⟨h1, h2, List.Sublist.refl _,
        fun x hx => absurd hx (List.not_mem_nil x),
        fun j0 hj0 hin hout => absurd hin hout⟩
    | cons c cs IHcs =>
      intro cur h1 h2 h3 h4 h5
      rw [remChildList_cons]
      cases hl : lookupJ c cur.queued with
      | none =>
        have hnotin : c ∉ ids cur.queued := lookupJ_eq_none.mp hl
        obtain ⟨k1, k2, k3, k4, k5⟩ := IHcs cur h1 h2 h3
          (fun x hx => h4 x (List.mem_cons_of_mem _ hx))
          (fun x hx => h5 x (List.mem_cons_of_mem _ hx))
        refine ⟨k1, k2, k3, ?_, k5⟩
        intro x hx
        rcases List.mem_cons.mp hx with rfl | hx'
        · exact fun hc => hnotin (k3.subset hc)
        · exact k4 x hx'
      | some child =>
        have hchild_mem : child ∈ cur.queued := (lookupJ_eq_some hl).1
        have hchild_id : child.job_id = c := (lookupJ_eq_some hl).2
        have hcinq : c ∈ ids cur.queued := hchild_id ▸ mem_ids_of_mem hchild_mem
        have hcq0 : c ∈ ids q0 := h3.subset hcinq
        have hcD : QReach q0 roots c := h4 c (List.mem_cons_self _ _) hcq0
        rcases h1 child hchild_mem with ⟨j0c, hj0c_mem, hj0c_id, hj0c_ch⟩
        have hj0c_id' : j0c.job_id = c := by rw [hj0c_id, hchild_id]
        have hlook_q0 : lookupJ c q0 = some j0c := by
          rw [← hj0c_id']
          exact lookupJ_self hq0 hj0c_mem
        have hchD : ∀ x ∈ child.children, x ∈ ids q0 → QReach q0 roots x := by
          intro x hx hxq0
          refine QReach.step hcD hlook_q0 ?_ hxq0
          rw [hj0c_ch]
          exact hx
        have hchGT : ∀ x ∈ child.children, c < x := by
          intro x hx
          have := hinc0 j0c hj0c_mem x (by rw [hj0c_ch]; exact hx)
          rw [hj0c_id'] at this
          exact this
        have hndcur : (ids cur.queued).Nodup := hq0.sublist h3
        have step : ∀ st1 : MasterState,
            (∀ j ∈ st1.queued, ∃ j0 ∈ q0,
              j0.job_id = j.job_id ∧ j0.children = j.children) →
            (∀ j0 ∈ q0, ¬ QReach q0 roots j0.job_id → j0 ∈ st1.queued) →
            List.Sublist (ids st1.queued) (ids cur.queued) →
            (∀ x ∈ child.children, x ∉ ids st1.queued) →
            (∀ j0 ∈ q0, j0.job_id ∈ ids cur.queued → j0.job_id ∉ ids st1.queued →
              ∀ ch ∈ j0.children, ch ∉ ids st1.queued) →
            ((∀ j ∈ (remChildList f cs
                { updateDependencies child st1 with
                  queued := eraseJ c (updateDependencies child st1).queued }).queued,
                ∃ j0 ∈ q0, j0.job_id = j.job_id ∧ j0.children = j.children) ∧
             (∀ j0 ∈ q0, ¬ QReach q0 roots j0.job_id →
                j0 ∈ (remChildList f cs
                  { updateDependencies child st1 with
                    queued := eraseJ c (updateDependencies child st1).queued }).queued) ∧
             List.Sublist (ids (remChildList f cs
                { updateDependencies child st1 with
                  queued := eraseJ c (updateDependencies child st1).queued }).queued)
               (ids cur.queued) ∧
             (∀ x ∈ c :: cs, x ∉ ids (remChildList f cs
                { updateDependencies child st1 with
                  queued := eraseJ c (updateDependencies child st1).queued }).queued) ∧
             (∀ j0 ∈ q0, j0.job_id ∈ ids cur.queued →
                j0.job_id ∉ ids (remChildList f cs
                  { updateDependencies child st1 with
                    queued := eraseJ c (updateDependencies child st1).queued }).queued →
                ∀ ch ∈ j0.children, ch ∉ ids (remChildList f cs
                  { updateDependencies child st1 with
                    queued := eraseJ c (updateDependencies child st1).queued }).queued)) := by
          intro st1 n1 n2 n3 n4 n5
          have hndst1 : (ids st1.queued).Nodup := hndcur.sublist n3
          have hids2 : ids (updateDependencies child st1).queued = ids st1.queued :=
            ids_updateDependencies _ _
          have hids3 : ids (eraseJ c (updateDependencies child st1).queued) =
              (ids st1.queued).erase c := by
            rw [ids_eraseJ, hids2]
          -- the state passed to the tail call
          have m1 : ∀ j ∈ (updateDependencies child st1).queued, ∃ j0 ∈ q0,
              j0.job_id = j.job_id ∧ j0.children = j.children := by
            intro j hj
            rcases mem_updDepsList_inv _ _ _ _ hj with ⟨y, hy, hyid, hych⟩
            rcases n1 y hy with ⟨j0, hj0, hj0id, hj0ch⟩
            exact ⟨j0, hj0, by rw [hj0id, hyid], by rw [hj0ch, hych]⟩
          have m2 : ∀ j0 ∈ q0, ¬ QReach q0 roots j0.job_id →
              j0 ∈ (updateDependencies child st1).queued := by
            intro j0 hj0 hnD
            refine mem_updDepsList_of_ne _ _ _ _ (n2 j0 hj0 hnD) ?_
            intro t ht hteq
            by_cases htin : t ∈ ids st1.queued
            · exact hnD (hteq ▸ hchD t (mem_sortedNats.mp ht)
                (n3.trans h3 |>.subset htin))
            · exact htin (hteq ▸ mem_ids_of_mem (n2 j0 hj0 hnD))
          have l1 : ∀ j ∈ eraseJ c (updateDependencies child st1).queued,
              ∃ j0 ∈ q0, j0.job_id = j.job_id ∧ j0.children = j.children :=
            fun j hj => m1 j ((eraseJ_sublist _ _).subset hj)
          have l2 : ∀ j0 ∈ q0, ¬ QReach q0 roots j0.job_id →
              j0 ∈ eraseJ c (updateDependencies child st1).queued := by
            intro j0 hj0 hnD
            refine mem_eraseJ_of_ne (m2 j0 hj0 hnD) ?_
            intro he
            exact hnD (he ▸ hcD)
          have l3sub : List.Sublist ((ids st1.queued).erase c) (ids cur.queued) :=
            (List.erase_sublist _ _).trans n3
          obtain ⟨k1, k2, k3, k4, k5⟩ := IHcs
            { updateDependencies child st1 with
              queued := eraseJ c (updateDependencies child st1).queued }
            l1 l2 (by rw [show ids (eraseJ c (updateDependencies child st1).queued)
                = (ids st1.queued).erase c from hids3]; exact l3sub.trans h3)
            (fun x hx => h4 x (List.mem_cons_of_mem _ hx))
            (by
              intro x hx hxin
              rw [show ids (eraseJ c (updateDependencies child st1).queued)
                = (ids st1.queued).erase c from hids3] at hxin ⊢
              have hxcur : x ∈ ids cur.queued := n3.subset (List.erase_subset _ _ hxin)
              refine Nat.le_trans ?_ (h5 x (List.mem_cons_of_mem _ hx) hxcur)
              exact List.Sublist.countP_le _ (l3sub))
          have hout_sub3 : List.Sublist
              (ids (remChildList f cs
                { updateDependencies child st1 with
                  queued := eraseJ c (updateDependencies child st1).queued }).queued)
              ((ids st1.queued).erase c) := by
            rw [← hids3]
            exact k3
          have hcnot3 : c ∉ (ids st1.queued).erase c := hndst1.not_mem_erase
          refine ⟨k1, k2, ?_, ?_, ?_⟩
          · exact hout_sub3.trans l3sub
          · intro x hx
            rcases List.mem_cons.mp hx with rfl | hx'
            · exact fun hc => hcnot3 (hout_sub3.subset hc)
            · exact k4 x hx'
          · -- the closure property
            intro j0 hj0 hincur hnotout
            by_cases hin3 : j0.job_id ∈ ids (eraseJ c (updateDependencies child st1).queued)
            · exact k5 j0 hj0 hin3 hnotout
            · rw [hids3] at hin3
              by_cases hin1 : j0.job_id ∈ ids st1.queued
              · -- erased at this step, so its id is c and its children are
                -- the child's children, all gone from st1 already
                have hjc : j0.job_id = c := by
                  by_contra hne
                  exact hin3 ((List.Nodup.mem_erase_iff hndst1).mpr ⟨hne, hin1⟩)
                have hj0_eq : j0 = j0c :=
                  eq_of_mem_of_id_eq hq0 hj0 hj0c_mem (by rw [hjc, hj0c_id'])
                intro ch hch
                have hch' : ch ∈ child.children := by
                  rw [← hj0c_ch, ← hj0_eq]
                  exact hch
                have : ch ∉ ids st1.queued := n4 ch hch'
                intro hc
                exact this (List.erase_subset _ _ (hout_sub3.subset hc))
              · -- removed by the nested call
                intro ch hch
                have := n5 j0 hj0 hincur hin1 ch hch
                intro hc
                exact this (List.erase_subset _ _ (hout_sub3.subset hc))
        cases f with
        | zero =>
          have hcount := h5 c (List.mem_cons_self _ _) hcinq
          have hnochild : ∀ x ∈ child.children, x ∉ ids cur.queued := by
            intro x hx hxin
            have h1c := countP_lt_of_mem_gt hxin (hchGT x hx)
            omega
          exact step cur h1 h2 (List.Sublist.refl _) hnochild
            (fun j0 hj0 hin hout => absurd hin hout)
        | succ f' =>
          obtain ⟨g1, g2, g3, g4, g5⟩ := IHf f' (Nat.lt_succ_self f')
            (sortedNats child.children) cur h1 h2 h3
            (fun x hx => hchD x (mem_sortedNats.mp hx))
            (by
              intro x hx hxin
              have hgt : c < x := hchGT x (mem_sortedNats.mp hx)
              have hcount := h5 c (List.mem_cons_self _ _) hcinq
              have h1c := countP_lt_of_mem_gt hxin hgt
              omega)
          exact step (remChildList f' (sortedNats child.children) cur) g1 g2 g3
            (fun x hx => g4 x (mem_sortedNats.mpr hx)) g5

theorem QReach.mem_ids {q : List Job} {roots : Finset Nat} {c : Nat}
    (h : QReach q roots c) : c ∈ ids q := by
  cases h with
  | base _ h2 => exact h2
  | step _ _ _ h4 => exact h4

/-- Claim C5: cascade removal of a terminated job removes every transitive
descendant reachable through `children` edges inside the queued map (the
subtree the depth-first recursion prunes), leaves the running map and the
slot counter untouched, and keeps every queued job that is not such a
descendant in the queued map with its exact original value. -/
theorem claim_c5_cascade_removal (st : MasterState) (root : Job)
    (hnd : (ids st.queued).Nodup) (hinc : IdIncreasing st.queued) :
    (removeChildren root st).running = st.running ∧
    (removeChildren root st).slots_available = st.slots_available ∧
    (∀ c, QReach st.queued root.children c →
      c ∉ ids (removeChildren root st).queued) ∧
    (∀ j ∈ st.queued, ¬ QReach st.queued root.children j.job_id →
      j ∈ (removeChildren root st).queued) := by
  obtain ⟨f1, f2, f3, f4, f5⟩ := removeChildren_frame root st
  obtain ⟨k1, k2, k3, k4, k5⟩ := remCL_cascade st.queued root.children hnd hinc
    st.queued.length (sortedNats root.children) st
    (fun j hj => ⟨j, hj, rfl, rfl⟩)
    (fun j0 hj0 _ => hj0)
    (List.Sublist.refl _)
    (fun x hx hxq => QReach.base (mem_sortedNats.mp hx) hxq)
    (fun x _ _ => by
      have hb : List.countP (fun y => decide (x < y)) (ids st.queued) ≤
          (ids st.queued).length := List.countP_le_length _
      simpa [ids] using hb)
  refine ⟨f1, f2, ?_, k2⟩
  intro c hreach
  induction hreach with
  | base hc hq => exact k4 _ (mem_sortedNats.mpr hc)
  | step hr hlook hch hq ih =>
    rcases lookupJ_eq_some hlook with ⟨hjc_mem, hjc_id⟩
    refine k5 _ hjc_mem ?_ ?_ _ hch
    · rw [hjc_id]
      exact hr.mem_ids
    · rw [hjc_id]
      exact ih

/-- witness for C5: cascading job 1 removes the queued chain 2 -> 3 and
keeps the unrelated queued job 9 and the running job 4. -/
theorem claim_c5_witness :
    ((ids c5WitState.queued).Nodup ∧ IdIncreasing c5WitState.queued) ∧
    ((removeChildren c5Root c5WitState).running = c5WitState.running ∧
     (removeChildren c5Root c5WitState).slots_available =
       c5WitState.slots_available ∧
     (∀ c, QReach c5WitState.queued c5Root.children c →
       c ∉ ids (removeChildren c5Root c5WitState).queued) ∧
     (∀ j ∈ c5WitState.queued, ¬ QReach c5WitState.queued c5Root.children j.job_id →
       j ∈ (removeChildren c5Root c5WitState).queued)) :=
  ⟨⟨by decide, by unfold IdIncreasing; decide⟩,
    claim_c5_cascade_removal c5WitState c5Root (by decide)
      (by unfold IdIncreasing; decide)⟩

end PyJip
